import Mathlib

/-!
Verification of the indexing and segment-merge core of the whoosh repository,
as a shallow embedding in Lean 4 of `src/whoosh/fields.py`,
`src/whoosh/filedb/pools.py` and `src/whoosh/reading.py`.

Conventions used throughout:
* Python tuples become nested products; Python strings become `String`
  (compared lexicographically by code point, exactly as Python compares
  strings); nonnegative integers become `Nat`; weights and boosts (Python
  floats that the embedded code only adds, multiplies and compares) become
  `Int`.
* The binary stream abstraction (`write_varint` / `read_varint`,
  `write_8bitfloat` / `read_8bitfloat`) is an external collaborator of the
  core, so it is modelled as a list of tagged items where a read returns
  exactly the value that was written.
* Generators become lists.  A `heapq` heap of iterator heads becomes a plain
  list of `(head, rest)` pairs together with an extract-minimum operation: a
  binary heap is an implementation of exactly that priority structure, and the
  tie order among equal heads (which in the source falls back to comparing
  generator identities) is unobservable in the properties proved here.
-/

namespace Whoosh

/-! ### Orders on Python values

Python compares strings lexicographically by code point and tuples
lexicographically component by component.  The comparisons are modelled as
executable `Bool` functions; the abstract `IsStrictTotalB` interface collects
the order laws needed in proofs. -/

/-- Strict lexicographic comparison of character lists (Python string `<`). -/
def charsLt : List Char → List Char → Bool
  | [], [] => false
  | [], _ :: _ => true
  | _ :: _, [] => false
  | a :: as, b :: bs => decide (a < b) || (decide (a = b) && charsLt as bs)

/-- Laws of a strict total order, for a boolean comparison function. -/
structure IsStrictTotalB {α : Type _} (lt : α → α → Bool) : Prop where
  irrefl : ∀ a, lt a a = false
  trans : ∀ a b c, lt a b → lt b c → lt a c
  total : ∀ a b, lt a b ∨ a = b ∨ lt b a

theorem IsStrictTotalB.asymm {α : Type _} {lt : α → α → Bool} (h : IsStrictTotalB lt)
    {a b : α} (hab : lt a b = true) (hba : lt b a = true) : False := by
  have := h.trans a b a hab hba
  rw [h.irrefl a] at this
  exact Bool.false_ne_true this

theorem IsStrictTotalB.ne {α : Type _} {lt : α → α → Bool} (h : IsStrictTotalB lt)
    {a b : α} (hab : lt a b = true) : a ≠ b := by
  rintro rfl
  rw [h.irrefl a] at hab
  exact Bool.false_ne_true hab

theorem charsLt_strictTotal : IsStrictTotalB charsLt := by
  constructor
  · intro a
    induction a with
    | nil => rfl
    | cons c cs ih => simp [charsLt, ih]
  · intro a
    induction a with
    | nil =>
      intro b c hab hbc
      cases b <;> cases c <;> simp_all [charsLt]
    | cons x xs ih =>
      intro b c hab hbc
      cases b with
      | nil => simp [charsLt] at hab
      | cons y ys =>
        cases c with
        | nil => simp [charsLt] at hbc
        | cons z zs =>
          simp only [charsLt, Bool.or_eq_true, Bool.and_eq_true, decide_eq_true_eq] at *
          rcases hab with h1 | ⟨rfl, h1⟩
          · rcases hbc with h2 | ⟨rfl, h2⟩
            · exact Or.inl (h1.trans h2)
            · exact Or.inl h1
          · rcases hbc with h2 | ⟨rfl, h2⟩
            · exact Or.inl h2
            · exact Or.inr ⟨rfl, ih ys zs h1 h2⟩
  · intro a
    induction a with
    | nil => intro b; cases b <;> simp [charsLt]
    | cons x xs ih =>
      intro b
      cases b with
      | nil => simp [charsLt]
      | cons y ys =>
        rcases lt_trichotomy x y with hxy | rfl | hxy
        · simp [charsLt, hxy]
        · rcases ih ys with h | h | h
          · simp [charsLt, h]
          · simp [charsLt, h]
          · simp [charsLt, h]
        · simp [charsLt, hxy]

/-- Python string `<` via the underlying code-point sequences. -/
def strLt (a b : String) : Bool := charsLt a.data b.data

theorem strLt_strictTotal : IsStrictTotalB strLt := by
  constructor
  · intro a; exact charsLt_strictTotal.irrefl a.data
  · intro a b c; exact charsLt_strictTotal.trans a.data b.data c.data
  · intro a b
    rcases charsLt_strictTotal.total a.data b.data with h | h | h
    · exact Or.inl h
    · refine Or.inr (Or.inl ?_)
      cases a; cases b; exact congrArg String.mk h
    · exact Or.inr (Or.inr h)

/-- `Nat` strict comparison as a boolean. -/
def natLt (a b : Nat) : Bool := decide (a < b)

theorem natLt_strictTotal : IsStrictTotalB natLt := by
  refine ⟨fun a => by simp [natLt], fun a b c => ?_, fun a b => ?_⟩
  · simp only [natLt, decide_eq_true_eq]; omega
  · simp only [natLt, decide_eq_true_eq]; omega

/-- `Int` strict comparison as a boolean. -/
def intLt (a b : Int) : Bool := decide (a < b)

theorem intLt_strictTotal : IsStrictTotalB intLt := by
  refine ⟨fun a => by simp [intLt], fun a b c => ?_, fun a b => ?_⟩
  · simp only [intLt, decide_eq_true_eq]; omega
  · simp only [intLt, decide_eq_true_eq]; omega

/-- One lexicographic step of Python tuple comparison `p <= q`: strictly
smaller first component, or equal first components and the rest compares. -/
def lexLe {α β : Type _} (ltA : α → α → Bool) [DecidableEq α]
    (le : β → β → Bool) (p q : α × β) : Bool :=
  if ltA p.1 q.1 then true
  else if p.1 = q.1 then le p.2 q.2
  else false

theorem lexLe_total {α β : Type _} {ltA : α → α → Bool} [DecidableEq α]
    {le : β → β → Bool} (hA : IsStrictTotalB ltA) (hle : ∀ a b, le a b || le b a)
    (p q : α × β) : lexLe ltA le p q || lexLe ltA le q p := by
  rcases hA.total p.1 q.1 with h | h | h
  · simp [lexLe, h]
  · simpa [lexLe, h, hA.irrefl] using hle p.2 q.2
  · have h1 : ltA p.1 q.1 = false := by
      cases hpq : ltA p.1 q.1
      · rfl
      · exact absurd (hA.asymm hpq h) (fun x => x)
    have h2 : p.1 ≠ q.1 := fun e => (hA.ne h) e.symm
    simp [lexLe, h, h1, h2]

theorem lexLe_trans {α β : Type _} {ltA : α → α → Bool} [DecidableEq α]
    {le : β → β → Bool} (hA : IsStrictTotalB ltA)
    (hle : ∀ a b c, le a b → le b c → le a c) (p q r : α × β) :
    lexLe ltA le p q → lexLe ltA le q r → lexLe ltA le p r := by
  unfold lexLe
  intro hpq hqr
  by_cases h1 : ltA p.1 q.1 = true
  · by_cases h2 : ltA q.1 r.1 = true
    · simp [hA.trans _ _ _ h1 h2]
    · simp only [h2, if_false] at hqr
      by_cases h3 : q.1 = r.1
      · simp [h3 ▸ h1]
      · simp [h3] at hqr
  · simp only [h1, if_false] at hpq
    by_cases h3 : p.1 = q.1
    · simp only [h3, if_pos] at hpq
      by_cases h2 : ltA q.1 r.1 = true
      · rw [h3]; simp [h2]
      · simp only [h2, if_false] at hqr
        by_cases h4 : q.1 = r.1
        · have heq : p.1 = r.1 := h3.trans h4
          simp only [h4, if_pos] at hqr
          simp [heq, hA.irrefl, hle _ _ _ hpq hqr]
        · simp [h4] at hqr
    · simp [h3] at hpq

theorem lexLe_antisymm {α β : Type _} {ltA : α → α → Bool} [DecidableEq α]
    {le : β → β → Bool} (hA : IsStrictTotalB ltA)
    (hle : ∀ a b, le a b → le b a → a = b) (p q : α × β) :
    lexLe ltA le p q → lexLe ltA le q p → p = q := by
  unfold lexLe
  intro hpq hqp
  by_cases h1 : ltA p.1 q.1 = true
  · by_cases h2 : ltA q.1 p.1 = true
    · exact absurd (hA.asymm h1 h2) (fun x => x)
    · simp only [h2, if_false] at hqp
      by_cases h3 : q.1 = p.1
      · exact absurd (h3 ▸ h1) (by simp [hA.irrefl])
      · simp [h3] at hqp
  · simp only [h1, if_false] at hpq
    by_cases h3 : p.1 = q.1
    · simp only [h3, if_pos] at hpq
      have h2 : ltA q.1 p.1 = false := by
        cases hx : ltA q.1 p.1
        · rfl
        · exact absurd (h3 ▸ hx) (by simp [hA.irrefl])
      simp only [h2, Bool.false_eq_true, if_false] at hqp
      rw [if_pos h3.symm] at hqp
      exact Prod.ext h3 (hle _ _ hpq hqp)
    · simp [h3] at hpq

/-- Python string `<=` (used as the innermost tuple component comparison). -/
def strLe (a b : String) : Bool := strLt a b || decide (a = b)

theorem strLe_total (a b : String) : strLe a b || strLe b a := by
  rcases strLt_strictTotal.total a b with h | h | h <;> simp [strLe, h]

theorem strLe_trans (a b c : String) : strLe a b → strLe b c → strLe a c := by
  simp only [strLe, Bool.or_eq_true, decide_eq_true_eq]
  rintro (h1 | rfl) (h2 | rfl)
  · exact Or.inl (strLt_strictTotal.trans _ _ _ h1 h2)
  · exact Or.inl h1
  · exact Or.inl h2
  · exact Or.inr rfl

theorem strLe_antisymm (a b : String) : strLe a b → strLe b a → a = b := by
  simp only [strLe, Bool.or_eq_true, decide_eq_true_eq]
  rintro (h1 | rfl)
  · rintro (h2 | rfl)
    · exact absurd (strLt_strictTotal.asymm h1 h2) (fun x => x)
    · rfl
  · intro _; rfl

/-! ### Postings and their total order -/

/-- A posting tuple `(fieldname, text, docnum, weight, valuestring)` as built
by `TempfilePool.add_posting` in `pools.py`. -/
abbrev Posting := String × String × Nat × Int × String

instance : DecidableEq Posting := inferInstance

/-- Python comparison `p <= q` on posting tuples: lexicographic on
`(fieldname, text, docnum, weight, valuestring)`.  `list.sort` in
`TempfilePool.dump_run` and the `heapq` heap in `imerge` order postings this
way. -/
def pble : Posting → Posting → Bool :=
  lexLe strLt (lexLe strLt (lexLe natLt (lexLe intLt strLe)))

theorem pble_total (p q : Posting) : pble p q || pble q p := by
  refine lexLe_total strLt_strictTotal (fun a b => ?_) p q
  refine lexLe_total strLt_strictTotal (fun a b => ?_) a b
  refine lexLe_total natLt_strictTotal (fun a b => ?_) a b
  exact lexLe_total intLt_strictTotal strLe_total a b

theorem pble_trans (p q r : Posting) : pble p q → pble q r → pble p r := by
  refine lexLe_trans strLt_strictTotal (fun a b c => ?_) p q r
  refine lexLe_trans strLt_strictTotal (fun a b c => ?_) a b c
  refine lexLe_trans natLt_strictTotal (fun a b c => ?_) a b c
  exact lexLe_trans intLt_strictTotal strLe_trans a b c

theorem pble_antisymm (p q : Posting) : pble p q → pble q p → p = q := by
  refine lexLe_antisymm strLt_strictTotal (fun a b => ?_) p q
  refine lexLe_antisymm strLt_strictTotal (fun a b => ?_) a b
  refine lexLe_antisymm natLt_strictTotal (fun a b => ?_) a b
  exact lexLe_antisymm intLt_strictTotal strLe_antisymm a b

example : pble ( "a", "b", 1, 2, "c") ( "a", "b", 1, 2, "d") = true := by decide
example : pble ( "b", "a", 1, 2, "c") ( "a", "z", 1, 2, "d") = false := by decide

/-! ### Posting codecs (`fields.py`)

The binary stream collaborator is abstract: the core only calls
`write_varint` / `read_varint` and `write_8bitfloat` / `read_8bitfloat`.  A
stream is modelled as the list of tagged items written to it; a matching read
returns exactly the written value, and a read against the wrong tag (or an
exhausted stream) fails.  Write methods are modelled by the items they emit;
writing onto an existing stream is list append. -/

/-- One item of the abstract binary stream. -/
inductive StreamItem where
  | vint (n : Nat)
  | f8 (b : Int)
deriving DecidableEq, Repr

/-- The sequence of items on the abstract binary stream. -/
abbrev Stream := List StreamItem

/-- A Python exception raised by the embedded code: `typeError` for the bad
`list.append` call in `Characters.read_postvalue`, `exception` for the
out-of-order `raise Exception(...)` in `write_postings`. -/
inductive PyError where
  | typeError
  | exception
deriving DecidableEq, Repr

/-- Items emitted by `stream.write_varint(n)`. -/
def write_varint (n : Nat) : Stream := [.vint n]

/-- Items emitted by `stream.write_8bitfloat(b)`. -/
def write_8bitfloat (b : Int) : Stream := [.f8 b]

/-- `stream.read_varint()`: the next written varint, plus the rest. -/
def read_varint : Stream → Option (Nat × Stream)
  | .vint n :: rest => some (n, rest)
  | _ => none

/-- `stream.read_8bitfloat()`: the next written quantized float, plus the
rest. -/
def read_8bitfloat : Stream → Option (Int × Stream)
  | .f8 b :: rest => some (b, rest)
  | _ => none

namespace Existance

/-- `Existance.write_postvalue`: writes nothing, returns frequency 0. -/
def write_postvalue (_data : Unit) : Stream × Nat := ([], 0)

/-- `Existance.read_postvalue`: reads nothing, returns `None`. -/
def read_postvalue (s : Stream) : Option (Unit × Stream) := some ((), s)

/-- `Existance.data_to_frequency`. -/
def data_to_frequency (_data : Unit) : Nat := 1

/-- `Existance.data_to_weight`. -/
def data_to_weight (field_boost : Int) (_data : Unit) : Int := field_boost

end Existance

namespace Frequency

/-- `Frequency.write_postvalue`: writes the count, returns it as the
frequency. -/
def write_postvalue (data : Nat) : Stream × Nat := (write_varint data, data)

/-- `Frequency.read_postvalue`. -/
def read_postvalue (s : Stream) : Option (Nat × Stream) := read_varint s

/-- `Frequency.data_to_frequency`. -/
def data_to_frequency (data : Nat) : Nat := data

/-- `Frequency.data_to_weight`. -/
def data_to_weight (field_boost : Int) (data : Nat) : Int := data * field_boost

end Frequency

namespace DocBoosts

/-- `DocBoosts.write_postvalue`: writes `(frequency, boost)`, returns the
frequency. -/
def write_postvalue (data : Nat × Int) : Stream × Nat :=
  (write_varint data.1 ++ write_8bitfloat data.2, data.1)

/-- `DocBoosts.read_postvalue`. -/
def read_postvalue (s : Stream) : Option ((Nat × Int) × Stream) :=
  match read_varint s with
  | none => none
  | some (n, s1) =>
    match read_8bitfloat s1 with
    | none => none
    | some (b, s2) => some ((n, b), s2)

/-- `DocBoosts.data_to_frequency`. -/
def data_to_frequency (data : Nat × Int) : Nat := data.1

/-- `DocBoosts.data_to_weight`. -/
def data_to_weight (field_boost : Int) (data : Nat × Int) : Int :=
  (data.1 : Int) * data.2 * field_boost

end DocBoosts

namespace Positions

/-- The delta-encoding loop of `Positions.write_postvalue`: each position is
written as its gap from the previous one (`pos - pos_base`).  For the valid
(nondecreasing) payloads produced by `word_datas` the `Nat` subtraction agrees
with the Python subtraction. -/
def writeDeltas (base : Nat) : List Nat → Stream
  | [] => []
  | pos :: rest => write_varint (pos - base) ++ writeDeltas pos rest

/-- `Positions.write_postvalue`: length-prefixed delta-encoded position
list; returns the frequency `len(data)`. -/
def write_postvalue (data : List Nat) : Stream × Nat :=
  (write_varint data.length ++ writeDeltas 0 data, data.length)

/-- The read loop of `Positions.read_postvalue`: running sum of deltas. -/
def readPositions (base : Nat) : Nat → Stream → Option (List Nat × Stream)
  | 0, s => some ([], s)
  | k + 1, s =>
    match read_varint s with
    | none => none
    | some (d, s1) =>
      match readPositions (base + d) k s1 with
      | none => none
      | some (ps, s2) => some ((base + d) :: ps, s2)

/-- `Positions.read_postvalue`. -/
def read_postvalue (s : Stream) : Option (List Nat × Stream) :=
  match read_varint s with
  | none => none
  | some (n, s1) => readPositions 0 n s1

/-- `Positions.data_to_frequency`. -/
def data_to_frequency (data : List Nat) : Nat := data.length

/-- `Positions.data_to_weight`. -/
def data_to_weight (field_boost : Int) (data : List Nat) : Int :=
  (data.length : Int) * field_boost

/-- `Positions.data_to_positions`. -/
def data_to_positions (data : List Nat) : List Nat := data

end Positions

namespace Characters

/-- The encoding loop of `Characters.write_postvalue`: positions are delta
encoded against the previous position, character offsets against the previous
end offset (start as `startchar - char_base`, end as `endchar - startchar`,
then `char_base = endchar`). -/
def writeChars (posBase charBase : Nat) : List (Nat × Nat × Nat) → Stream
  | [] => []
  | (pos, startchar, endchar) :: rest =>
    write_varint (pos - posBase) ++
      write_varint (startchar - charBase) ++
      write_varint (endchar - startchar) ++
      writeChars pos endchar rest

/-- `Characters.write_postvalue`. -/
def write_postvalue (data : List (Nat × Nat × Nat)) : Stream × Nat :=
  (write_varint data.length ++ writeChars 0 0 data, data.length)

/-- `Characters.read_postvalue`.  The source reads the three varints of an
entry and then executes `ls.append(pos_base, startchar, char_base)`; Python
`list.append` takes exactly one argument, so this raises `TypeError` on the
first iteration.  Consequently the method only returns normally for an empty
payload; any nonempty payload makes decoding fail. -/
def read_postvalue (s : Stream) : Except PyError (List (Nat × Nat × Nat) × Stream) :=
  match read_varint s with
  | none => .error .typeError
  | some (0, s1) => .ok ([], s1)
  | some (_ + 1, s1) =>
    match read_varint s1 with
    | none => .error .typeError
    | some (_, s2) =>
      match read_varint s2 with
      | none => .error .typeError
      | some (_, s3) =>
        match read_varint s3 with
        | none => .error .typeError
        | some (_, _) => .error .typeError

/-- `Characters.data_to_frequency`. -/
def data_to_frequency (data : List (Nat × Nat × Nat)) : Nat := data.length

/-- `Characters.data_to_weight`. -/
def data_to_weight (field_boost : Int) (data : List (Nat × Nat × Nat)) : Int :=
  (data.length : Int) * field_boost

/-- `Characters.data_to_positions`. -/
def data_to_positions (data : List (Nat × Nat × Nat)) : List Nat :=
  data.map (fun e => e.1)

/-- `Characters.data_to_characters`. -/
def data_to_characters (data : List (Nat × Nat × Nat)) : List (Nat × Nat) :=
  data.map (fun e => (e.2.1, e.2.2))

end Characters

namespace PositionBoosts

/-- `PositionBoosts.write_postvalue`: length prefix, then per entry the
position delta and the quantized boost; returns the entry count. -/
def writeEntries (base : Nat) : List (Nat × Int) → Stream
  | [] => []
  | (pos, boost) :: rest =>
    write_varint (pos - base) ++ write_8bitfloat boost ++ writeEntries pos rest

/-- `PositionBoosts.write_postvalue`. -/
def write_postvalue (data : List (Nat × Int)) : Stream × Nat :=
  (write_varint data.length ++ writeEntries 0 data, data.length)

/-- The read loop of `PositionBoosts.read_postvalue`. -/
def readEntries (base : Nat) : Nat → Stream → Option (List (Nat × Int) × Stream)
  | 0, s => some ([], s)
  | k + 1, s =>
    match read_varint s with
    | none => none
    | some (d, s1) =>
      match read_8bitfloat s1 with
      | none => none
      | some (b, s2) =>
        match readEntries (base + d) k s2 with
        | none => none
        | some (ps, s3) => some ((base + d, b) :: ps, s3)

/-- `PositionBoosts.read_postvalue`.  Note the asymmetry with
`write_postvalue`: the source returns the pair `(freq, pos_list)`, not the
bare `pos_list` that `write_postvalue` consumes and the extractors index
into. -/
def read_postvalue (s : Stream) : Option ((Nat × List (Nat × Int)) × Stream) :=
  match read_varint s with
  | none => none
  | some (freq, s1) =>
    match readEntries 0 freq s1 with
    | none => none
    | some (ps, s2) => some ((freq, ps), s2)

/-- `PositionBoosts.data_to_frequency`. -/
def data_to_frequency (data : List (Nat × Int)) : Nat := data.length

/-- `PositionBoosts.data_to_weight`. -/
def data_to_weight (field_boost : Int) (data : List (Nat × Int)) : Int :=
  (data.length : Int) * (data.map (fun d => d.2)).sum * field_boost

/-- `PositionBoosts.data_to_positions`. -/
def data_to_positions (data : List (Nat × Int)) : List Nat :=
  data.map (fun d => d.1)

/-- `PositionBoosts.data_to_position_boosts`. -/
def data_to_position_boosts (data : List (Nat × Int)) : List (Nat × Int) := data

end PositionBoosts

/-! Round trips for the codecs whose decoder is the inverse of the encoder. -/

theorem existance_roundtrip (rest : Stream) :
    Existance.read_postvalue ((Existance.write_postvalue ()).1 ++ rest) =
      some ((), rest) := rfl

theorem frequency_roundtrip (data : Nat) (rest : Stream) :
    Frequency.read_postvalue ((Frequency.write_postvalue data).1 ++ rest) =
      some (data, rest) := rfl

theorem docBoosts_roundtrip (data : Nat × Int) (rest : Stream) :
    DocBoosts.read_postvalue ((DocBoosts.write_postvalue data).1 ++ rest) =
      some (data, rest) := rfl

theorem readPositions_writeDeltas (data : List Nat) :
    ∀ (base : Nat) (rest : Stream), List.Chain' (· ≤ ·) (base :: data) →
      Positions.readPositions base data.length
          (Positions.writeDeltas base data ++ rest) = some (data, rest) := by
  induction data with
  | nil => intro base rest _; rfl
  | cons pos ps ih =>
    intro base rest hchain
    have hle : base ≤ pos := List.chain'_cons.mp hchain |>.1
    have htail : List.Chain' (· ≤ ·) (pos :: ps) := List.chain'_cons.mp hchain |>.2
    simp only [Positions.writeDeltas, write_varint, List.length_cons,
      List.cons_append, List.append_assoc]
    simp only [Positions.readPositions, read_varint]
    rw [Nat.add_sub_cancel' hle]
    simp only [List.nil_append]
    rw [ih pos rest htail]

/-- For the nondecreasing position lists produced by `word_datas`, the
`Positions` decoder inverts the encoder. -/
theorem positions_roundtrip (data : List Nat) (rest : Stream)
    (h : List.Chain' (· ≤ ·) data) :
    Positions.read_postvalue ((Positions.write_postvalue data).1 ++ rest) =
      some (data, rest) := by
  have h0 : List.Chain' (· ≤ ·) (0 :: data) := by
    cases data with
    | nil => simp
    | cons a as => exact List.chain'_cons.mpr ⟨Nat.zero_le a, h⟩
  simp only [Positions.write_postvalue, Positions.read_postvalue, write_varint,
    List.cons_append, read_varint]
  exact readPositions_writeDeltas data 0 rest h0

/-- C1 evaluation: decoding any nonempty `Characters` payload raises
`TypeError` (the source calls `ls.append` with three arguments), so the
claimed round trip fails on the `Characters` codec. -/
theorem characters_roundtrip_raises :
    Characters.read_postvalue
        ((Characters.write_postvalue [(1, 2, 3)]).1 ++ []) = .error .typeError := by
  rfl

/-! ### k-way merge (`imerge` in `pools.py`)

`imerge` keeps one `(head item, iterator)` pair per input on a `heapq` heap,
pops the least pair, yields its item and refills from the iterator of that
pair;
once a single pair remains it short-circuits to a plain pass-through.  The
heap is modelled as a list of `(head, rest)` pairs with an extract-minimum
operation; which pair wins a tie between equal heads is unspecified in the
source (`heapq` falls back to comparing generator objects), and the model
takes the earliest. -/

/-- Remove a pair whose head item is least (`heappop`).  Returns the chosen
pair and the remaining pairs. -/
def extractMin {α : Type _} (le : α → α → Bool) :
    List (α × List α) → Option ((α × List α) × List (α × List α))
  | [] => none
  | c :: cs =>
    match extractMin le cs with
    | none => some (c, [])
    | some (m, rest) => if le c.1 m.1 then some (c, cs) else some (m, c :: rest)

/-- Total number of items remaining in the heap (each pair holds its head
plus its unread tail). -/
def heapSize {α : Type _} (cs : List (α × List α)) : Nat :=
  (cs.map (fun c => c.2.length + 1)).sum


theorem extractMin_isSome {α : Type _} (le : α → α → Bool) (c : α × List α)
    (cs : List (α × List α)) : (extractMin le (c :: cs)).isSome = true := by
  simp only [extractMin]
  rcases hm : extractMin le cs with _ | ⟨m, rest⟩
  · rfl
  · dsimp only
    split <;> rfl

theorem extractMin_none {α : Type _} {le : α → α → Bool}
    {cs : List (α × List α)} (h : extractMin le cs = none) : cs = [] := by
  cases cs with
  | nil => rfl
  | cons c cs =>
    have hx := extractMin_isSome le c cs
    rw [h] at hx
    simp at hx

theorem extractMin_perm {α : Type _} {le : α → α → Bool} :
    ∀ {cs : List (α × List α)} {m rest}, extractMin le cs = some (m, rest) →
      cs.Perm (m :: rest) := by
  intro cs
  induction cs with
  | nil => intro m rest h; simp [extractMin] at h
  | cons c cs ih =>
    intro m rest h
    rcases hm : extractMin le cs with _ | ⟨m', rest'⟩
    · simp only [extractMin, hm] at h
      obtain rfl := extractMin_none hm
      simp only [Option.some.injEq, Prod.mk.injEq] at h
      obtain ⟨rfl, rfl⟩ := h
      exact List.Perm.refl _
    · simp only [extractMin, hm] at h
      by_cases hle : le c.1 m'.1 = true
      · rw [if_pos hle] at h
        simp only [Option.some.injEq, Prod.mk.injEq] at h
        obtain ⟨rfl, rfl⟩ := h
        exact List.Perm.refl _
      · rw [if_neg hle] at h
        simp only [Option.some.injEq, Prod.mk.injEq] at h
        obtain ⟨rfl, rfl⟩ := h
        exact (List.Perm.cons c (ih hm)).trans (List.Perm.swap m' c rest')

theorem le_refl_of_total {α : Type _} {le : α → α → Bool}
    (htot : ∀ a b, le a b || le b a) (a : α) : le a a = true := by
  have := htot a a
  simpa using this

theorem extractMin_least {α : Type _} {le : α → α → Bool}
    (htrans : ∀ a b c, le a b → le b c → le a c)
    (htot : ∀ a b, le a b || le b a) :
    ∀ {cs : List (α × List α)} {m rest}, extractMin le cs = some (m, rest) →
      ∀ c ∈ cs, le m.1 c.1 = true := by
  intro cs
  induction cs with
  | nil => intro m rest h; simp [extractMin] at h
  | cons c cs ih =>
    intro m rest h
    rcases hm : extractMin le cs with _ | ⟨m', rest'⟩
    · simp only [extractMin, hm] at h
      obtain rfl := extractMin_none hm
      simp only [Option.some.injEq, Prod.mk.injEq] at h
      obtain ⟨rfl, rfl⟩ := h
      intro x hx
      rcases List.mem_singleton.mp hx with rfl
      exact le_refl_of_total htot _
    · simp only [extractMin, hm] at h
      have ihm := ih hm
      by_cases hle : le c.1 m'.1 = true
      · rw [if_pos hle] at h
        simp only [Option.some.injEq, Prod.mk.injEq] at h
        obtain ⟨rfl, rfl⟩ := h
        intro x hx
        rcases List.mem_cons.mp hx with rfl | hx
        · exact le_refl_of_total htot _
        · exact htrans _ _ _ hle (ihm x hx)
      · rw [if_neg hle] at h
        simp only [Option.some.injEq, Prod.mk.injEq] at h
        obtain ⟨rfl, rfl⟩ := h
        intro x hx
        rcases List.mem_cons.mp hx with rfl | hx
        · have hx2 := htot x.1 m'.1
          simp only [hle, Bool.false_or] at hx2
          exact hx2
        · exact ihm x hx

/-- The merge loop of `imerge`.  While more than one pair remains, pop the
least pair, yield its head, refill from its iterator (`heappush`); with a
single pair left, pass its items through unchanged.  The fuel argument counts
loop iterations; `imerge` supplies enough for the loop to drain the heap. -/
def imergeAux {α : Type _} (le : α → α → Bool) : Nat → List (α × List α) → List α
  | _, [] => []
  | _, [c] => c.1 :: c.2
  | 0, _ => []
  | fuel + 1, cs =>
    match extractMin le cs with
    | none => []
    | some ((a, rest), others) =>
      a :: imergeAux le fuel
        (match rest with
          | [] => others
          | r :: rs => others ++ [(r, rs)])

/-- The head and tail of a nonempty iterator; `none` for an exhausted one
(the `try ... except StopIteration` around the initial `g.next()`). -/
def toHeadPair {α : Type _} : List α → Option (α × List α)
  | [] => none
  | a :: rest => some (a, rest)

/-- `imerge(iterators)`: initialize the heap with the head of each nonempty
iterator (a `StopIteration` on the first read of an input just skips that
input), then run the merge loop. -/
def imerge {α : Type _} (le : α → α → Bool) (its : List (List α)) : List α :=
  let current := its.filterMap toHeadPair
  imergeAux le (heapSize current) current

theorem imergeAux_perm_sorted {α : Type _} (le : α → α → Bool)
    (htrans : ∀ a b c, le a b → le b c → le a c)
    (htot : ∀ a b, le a b || le b a) :
    ∀ (fuel : Nat) (cs : List (α × List α)), heapSize cs ≤ fuel + 1 →
      (∀ c ∈ cs, List.Pairwise (fun a b => le a b = true) (c.1 :: c.2)) →
      (imergeAux le fuel cs).Perm ((cs.map (fun c => c.1 :: c.2)).flatten) ∧
        List.Pairwise (fun a b => le a b = true) (imergeAux le fuel cs) := by
  intro fuel
  induction fuel with
  | zero =>
    intro cs hsize hs
    match cs with
    | [] => simp [imergeAux]
    | [c] =>
      refine ⟨by simp [imergeAux], ?_⟩
      simpa [imergeAux] using hs c (by simp)
    | c1 :: c2 :: cs' =>
      exfalso
      simp only [heapSize, List.map_cons, List.sum_cons] at hsize
      omega
  | succ fuel ih =>
    intro cs hsize hs
    match cs with
    | [] => simp [imergeAux]
    | [c] =>
      refine ⟨by simp [imergeAux], ?_⟩
      simpa [imergeAux] using hs c (by simp)
    | c1 :: c2 :: cs' =>
      rcases hx : extractMin le (c1 :: c2 :: cs') with _ | ⟨⟨a, rest⟩, others⟩
      · exact absurd (extractMin_none hx) (by simp)
      · have hperm := extractMin_perm hx
        have hleast := extractMin_least htrans htot hx
        have hmem_sub : ∀ c ∈ others, c ∈ c1 :: c2 :: cs' := by
          intro c hc
          exact hperm.mem_iff.mpr (List.mem_cons_of_mem _ hc)
        have hsize_eq : heapSize (c1 :: c2 :: cs') = rest.length + 1 + heapSize others := by
          have hse := (hperm.map (fun c => c.2.length + 1)).sum_eq
          simp only [heapSize] at *
          simpa using hse
        have hjoin_cs : ((c1 :: c2 :: cs').map (fun c => c.1 :: c.2)).flatten.Perm
            (a :: (rest ++ (others.map (fun c => c.1 :: c.2)).flatten)) := by
          have hj := (hperm.map (fun c => c.1 :: c.2)).flatten
          simpa using hj
        have hle_head_all : ∀ c₀ ∈ c1 :: c2 :: cs', ∀ y ∈ c₀.1 :: c₀.2, le a y = true := by
          intro c₀ hc₀ y hy
          rcases List.mem_cons.mp hy with rfl | hy
          · exact hleast c₀ hc₀
          · exact htrans _ _ _ (hleast c₀ hc₀)
              ((List.pairwise_cons.mp (hs c₀ hc₀)).1 y hy)
        have hpair_a : List.Pairwise (fun a b => le a b = true) (a :: rest) :=
          hs (a, rest) (hperm.mem_iff.mpr (by simp))
        cases rest with
        | nil =>
          have hstep : imergeAux le (fuel + 1) (c1 :: c2 :: cs') =
              a :: imergeAux le fuel others := by
            simp only [imergeAux, hx]
          have hsz : heapSize others ≤ fuel + 1 := by
            simp only [List.length_nil] at hsize_eq
            omega
          obtain ⟨permIH, sortIH⟩ := ih others hsz (fun c hc => hs c (hmem_sub c hc))
          rw [hstep]
          constructor
          · refine List.Perm.trans (List.Perm.cons a permIH) ?_
            refine List.Perm.trans ?_ hjoin_cs.symm
            simp
          · refine List.pairwise_cons.mpr ⟨?_, sortIH⟩
            intro x hxmem
            have hxj := permIH.mem_iff.mp hxmem
            obtain ⟨l, hl, hxl⟩ := List.mem_flatten.mp hxj
            obtain ⟨c, hc, rfl⟩ := List.mem_map.mp hl
            exact hle_head_all c (hmem_sub c hc) x hxl
        | cons r rs =>
          have hstep : imergeAux le (fuel + 1) (c1 :: c2 :: cs') =
              a :: imergeAux le fuel (others ++ [(r, rs)]) := by
            simp only [imergeAux, hx]
          have hsz : heapSize (others ++ [(r, rs)]) ≤ fuel + 1 := by
            simp only [heapSize, List.map_append, List.sum_append, List.map_cons,
              List.sum_cons, List.map_nil, List.sum_nil] at *
            simp only [List.length_cons] at hsize_eq
            omega
          have hs'' : ∀ c ∈ others ++ [(r, rs)],
              List.Pairwise (fun a b => le a b = true) (c.1 :: c.2) := by
            intro c hc
            rcases List.mem_append.mp hc with hc | hc
            · exact hs c (hmem_sub c hc)
            · rcases List.mem_singleton.mp hc with rfl
              exact (List.pairwise_cons.mp hpair_a).2
          obtain ⟨permIH, sortIH⟩ := ih (others ++ [(r, rs)]) hsz hs''
          rw [hstep]
          constructor
          · refine List.Perm.trans (List.Perm.cons a permIH) ?_
            refine List.Perm.trans ?_ hjoin_cs.symm
            refine List.Perm.cons a ?_
            simp only [List.map_append, List.flatten_append, List.map_cons,
              List.map_nil, List.flatten_cons, List.flatten_nil, List.append_nil]
            exact List.perm_append_comm
          · refine List.pairwise_cons.mpr ⟨?_, sortIH⟩
            intro x hxmem
            have hxj := permIH.mem_iff.mp hxmem
            obtain ⟨l, hl, hxl⟩ := List.mem_flatten.mp hxj
            obtain ⟨c, hc, rfl⟩ := List.mem_map.mp hl
            rcases List.mem_append.mp hc with hc | hc
            · exact hle_head_all c (hmem_sub c hc) x hxl
            · rcases List.mem_singleton.mp hc with rfl
              exact (List.pairwise_cons.mp hpair_a).1 x hxl

/-- The initial heap holds exactly the contents of the nonempty inputs. -/
theorem flatten_filterMap_heads {α : Type _} :
    ∀ its : List (List α),
      ((its.filterMap toHeadPair).map (fun c => c.1 :: c.2)).flatten = its.flatten
  | [] => rfl
  | [] :: rest => by
    simpa [List.filterMap_cons, toHeadPair] using flatten_filterMap_heads rest
  | (a :: l) :: rest => by
    simpa [List.filterMap_cons, toHeadPair] using flatten_filterMap_heads rest

/-- A single input is passed through unchanged, sorted or not. -/
theorem imerge_single {α : Type _} (le : α → α → Bool) (l : List α) :
    imerge le [l] = l := by
  cases l <;> rfl

/-- Shared correctness statement for `imerge`: on individually sorted inputs,
the output is a sorted permutation of the concatenation of the inputs. -/
theorem imerge_perm_sorted {α : Type _} (le : α → α → Bool)
    (htrans : ∀ a b c, le a b → le b c → le a c)
    (htot : ∀ a b, le a b || le b a)
    (its : List (List α))
    (hsorted : ∀ l ∈ its, List.Pairwise (fun a b => le a b = true) l) :
    (imerge le its).Perm its.flatten ∧
      List.Pairwise (fun a b => le a b = true) (imerge le its) := by
  have hcur : ∀ c ∈ its.filterMap toHeadPair,
      List.Pairwise (fun a b => le a b = true) (c.1 :: c.2) := by
    intro c hc
    obtain ⟨l, hl, hfl⟩ := List.mem_filterMap.mp hc
    match l, hfl with
    | [], h => simp [toHeadPair] at h
    | a :: rest, h =>
      simp only [toHeadPair, Option.some.injEq] at h
      subst h
      exact hsorted _ hl
  have hmain := imergeAux_perm_sorted le htrans htot
    (heapSize (its.filterMap toHeadPair))
    (its.filterMap toHeadPair)
    (Nat.le_succ _) hcur
  rw [flatten_filterMap_heads] at hmain
  simpa [imerge] using hmain

/-- C5: for every finite list of individually sorted iterators — zero, one or
many, empty iterators and cross-iterator duplicates included — `imerge`
yields a sorted sequence whose multiset of elements is the multiset union of
the inputs; with zero inputs it yields nothing, and with a single input it
yields the elements of that input in their original order. -/
theorem imerge_kway_merge_correct {α : Type _} (le : α → α → Bool)
    (htrans : ∀ a b c : α, le a b → le b c → le a c)
    (htot : ∀ a b : α, le a b || le b a)
    (its : List (List α))
    (hsorted : ∀ l ∈ its, List.Pairwise (fun a b => le a b = true) l) :
    (imerge le its).Perm its.flatten ∧
      List.Pairwise (fun a b => le a b = true) (imerge le its) ∧
      imerge le ([] : List (List α)) = [] ∧
      ∀ l : List α, imerge le [l] = l := by
  obtain ⟨h1, h2⟩ := imerge_perm_sorted le htrans htot its hsorted
  exact ⟨h1, h2, rfl, imerge_single le⟩

/-- Witness for C5 at a concrete input: two overlapping sorted posting runs
and one empty run. -/
theorem imerge_kway_merge_correct_witness :
    (imerge pble [[( "f", "a", 1, 1, ""), ( "f", "b", 0, 1, "")],
        [( "f", "a", 2, 1, "")], []]).Perm
      ([[( "f", "a", 1, 1, ""), ( "f", "b", 0, 1, "")],
        [( "f", "a", 2, 1, "")], []] : List (List Posting)).flatten ∧
      List.Pairwise (fun a b => pble a b = true)
        (imerge pble [[( "f", "a", 1, 1, ""), ( "f", "b", 0, 1, "")],
          [( "f", "a", 2, 1, "")], []]) ∧
      imerge pble ([] : List (List Posting)) = [] ∧
      ∀ l : List Posting, imerge pble [l] = l :=
  imerge_kway_merge_correct pble pble_trans pble_total
    [[( "f", "a", 1, 1, ""), ( "f", "b", 0, 1, "")], [( "f", "a", 2, 1, "")], []]
    (by decide)

/-! ### TempfilePool (`pools.py`)

The pool buffers postings in memory; `add_posting` spills the buffer to a
sorted on-disk run when the running byte estimate has reached the budget.  A
run file is modelled as the sorted list of postings dumped to it, kept next
to the count that `dump_run` records in `self.runs`; `read_run` reads exactly
that many records back.  `finish` is modelled by the posting sequence it
hands to `write_postings` (its length-file bookkeeping is unrelated to the
claims). -/

/-- The in-memory state of `TempfilePool`. -/
structure TempfilePool where
  limit : Nat
  size : Nat
  count : Nat
  postings : List Posting
  runs : List (List Posting × Nat)

/-- `TempfilePool.__init__` with a byte budget of `limitmb` megabytes. -/
def TempfilePool.init (limitmb : Nat) : TempfilePool :=
  { limit := limitmb * 1024 * 1024, size := 0, count := 0, postings := [], runs := [] }

/-- The per-posting contribution to the byte-size estimate in `add_posting`:
`len(fieldname) + len(text) + 18`, plus `len(valuestring)` when the value
string is truthy (nonempty). -/
def posting_size (p : Posting) : Nat :=
  p.1.length + p.2.1.length + 18 +
    (if p.2.2.2.2 ≠ "" then p.2.2.2.2.length else 0)

/-- `TempfilePool.dump_run`: when the buffer is nonempty (`size > 0`), sort
it, write it out as one new run recording the buffered posting count, and
clear the buffer. -/
def TempfilePool.dump_run (P : TempfilePool) : TempfilePool :=
  if 0 < P.size then
    { P with runs := P.runs ++ [(P.postings.mergeSort pble, P.count)],
             postings := [], size := 0, count := 0 }
  else P

/-- `TempfilePool.add_posting`: spill first when the estimate has reached the
budget, then append the posting and grow the estimate. -/
def TempfilePool.add_posting (P : TempfilePool) (p : Posting) : TempfilePool :=
  let P1 := if P.limit ≤ P.size then P.dump_run else P
  { P1 with size := P1.size + posting_size p,
            postings := P1.postings ++ [p],
            count := P1.count + 1 }

/-- `read_run(filename, count)`: yield exactly `count` records from the run
file. -/
def read_run (run : List Posting × Nat) : List Posting := run.1.take run.2

/-- `TempfilePool.finish`, restricted to the posting sequence it feeds to
`write_postings`: the in-memory fast path sorts the buffer directly; the
spilled path dumps the remaining buffer as a final run and merges all runs.
When nothing was ever added, `write_postings` is not called at all, which the
model renders as the empty sequence.  (The `elif` branch of the source that
would produce `iter([])` sits inside the outer nonempty test and is
unreachable.) -/
def TempfilePool.finish_postiter (P : TempfilePool) : List Posting :=
  if P.postings ≠ [] ∨ P.runs ≠ [] then
    if P.postings ≠ [] ∧ P.runs = [] then
      P.postings.mergeSort pble
    else
      let P1 := P.dump_run
      imerge pble (P1.runs.map read_run)
  else []

/-- Adding a list of postings one by one. -/
def TempfilePool.addAll (P : TempfilePool) (ps : List Posting) : TempfilePool :=
  ps.foldl TempfilePool.add_posting P

/-- Invariant tying a pool state to the multiset of postings added so far:
every run is sorted and stores its own length as its count, the run contents
plus the buffer are a permutation of everything added, the running count is
the buffer length, and the byte estimate is zero exactly for an empty
buffer. -/
def PoolInv (P : TempfilePool) (added : List Posting) : Prop :=
  (∀ r ∈ P.runs, r.2 = r.1.length ∧ List.Pairwise (fun a b => pble a b = true) r.1) ∧
    ((P.runs.map (fun r => r.1)).flatten ++ P.postings).Perm added ∧
    P.count = P.postings.length ∧
    (P.size = 0 ↔ P.postings = [])

theorem poolInv_init (limitmb : Nat) : PoolInv (TempfilePool.init limitmb) [] := by
  refine ⟨by simp [TempfilePool.init], by simp [TempfilePool.init], rfl, by simp [TempfilePool.init]⟩

theorem poolInv_dump_run {P : TempfilePool} {added : List Posting}
    (h : PoolInv P added) : PoolInv P.dump_run added ∧ P.dump_run.postings = [] := by
  obtain ⟨hruns, hperm, hcount, hsize⟩ := h
  by_cases hpos : 0 < P.size
  · have hd : P.dump_run = { P with
        runs := P.runs ++ [(P.postings.mergeSort pble, P.count)],
        postings := [], size := 0, count := 0 } := by
      simp [TempfilePool.dump_run, hpos]
    rw [hd]
    refine ⟨⟨?_, ?_, rfl, by simp⟩, rfl⟩
    · intro r hr
      rcases List.mem_append.mp hr with hr | hr
      · exact hruns r hr
      · rcases List.mem_singleton.mp hr with rfl
        refine ⟨by simp [hcount], ?_⟩
        exact List.sorted_mergeSort pble_trans pble_total P.postings
    · simp only [List.map_append, List.flatten_append, List.map_cons,
        List.map_nil, List.flatten_cons, List.flatten_nil, List.append_nil]
      refine List.Perm.trans ?_ hperm
      exact List.Perm.append_left _ (List.mergeSort_perm P.postings pble)
  · have hz : P.size = 0 := Nat.eq_zero_of_not_pos hpos
    have hp : P.postings = [] := hsize.mp hz
    have hd : P.dump_run = P := by simp [TempfilePool.dump_run, hpos]
    rw [hd]
    exact ⟨⟨hruns, hperm, hcount, hsize⟩, hp⟩

theorem poolInv_push {Q : TempfilePool} {added : List Posting}
    (h : PoolInv Q added) (p : Posting) :
    PoolInv { Q with size := Q.size + posting_size p,
                     postings := Q.postings ++ [p],
                     count := Q.count + 1 } (added ++ [p]) := by
  obtain ⟨hruns, hperm, hcount, hsize⟩ := h
  have h18 : 18 ≤ posting_size p := by
    unfold posting_size
    split <;> omega
  refine ⟨hruns, ?_, by simp [hcount], ?_⟩
  · show ((Q.runs.map (fun r => r.1)).flatten ++ (Q.postings ++ [p])).Perm (added ++ [p])
    rw [← List.append_assoc]
    exact hperm.append_right [p]
  · show Q.size + posting_size p = 0 ↔ Q.postings ++ [p] = []
    constructor
    · intro hx
      omega
    · intro hx
      simp at hx

theorem poolInv_add_posting {P : TempfilePool} {added : List Posting}
    (h : PoolInv P added) (p : Posting) :
    PoolInv (P.add_posting p) (added ++ [p]) := by
  by_cases hck : P.limit ≤ P.size
  · have h1 := (poolInv_dump_run h).1
    have he : P.add_posting p = { P.dump_run with
        size := P.dump_run.size + posting_size p,
        postings := P.dump_run.postings ++ [p],
        count := P.dump_run.count + 1 } := by
      simp [TempfilePool.add_posting, hck]
    rw [he]
    exact poolInv_push h1 p
  · have he : P.add_posting p = { P with
        size := P.size + posting_size p,
        postings := P.postings ++ [p],
        count := P.count + 1 } := by
      simp [TempfilePool.add_posting, hck]
    rw [he]
    exact poolInv_push h p

theorem poolInv_addAll {P : TempfilePool} {added : List Posting}
    (h : PoolInv P added) (ps : List Posting) :
    PoolInv (P.addAll ps) (added ++ ps) := by
  induction ps generalizing P added with
  | nil => simpa [TempfilePool.addAll] using h
  | cons p ps ih =>
    have h2 := ih (poolInv_add_posting h p)
    simpa [TempfilePool.addAll, List.append_assoc] using h2

/-- Two sorted permutations of each other are equal (the comparison is total
and antisymmetric on posting tuples). -/
theorem sorted_perm_unique {α : Type _} {le : α → α → Bool}
    (hanti : ∀ a b, le a b → le b a → a = b)
    {l₁ l₂ : List α} (hp : l₁.Perm l₂)
    (hs₁ : List.Pairwise (fun a b => le a b = true) l₁)
    (hs₂ : List.Pairwise (fun a b => le a b = true) l₂) : l₁ = l₂ := by
  haveI : IsAntisymm α (fun a b => le a b = true) := ⟨hanti⟩
  exact List.eq_of_perm_of_sorted hp hs₁ hs₂

/-- C2: for every sequence of added postings and every byte budget, the
posting sequence that `TempfilePool.finish` feeds to `write_postings` is
exactly the input sorted by the natural lexicographic order on
`(fieldname, text, docnum, weight, valuestring)` — the same sequence as
sorting the entire input in memory at once. -/
theorem tempfilePool_finish_external_sort (limitmb : Nat) (ps : List Posting) :
    ((TempfilePool.init limitmb).addAll ps).finish_postiter = ps.mergeSort pble := by
  have hinv : PoolInv ((TempfilePool.init limitmb).addAll ps) ps := by
    simpa using poolInv_addAll (poolInv_init limitmb) ps
  set P := (TempfilePool.init limitmb).addAll ps
  obtain ⟨hruns, hperm, hcount, hsize⟩ := hinv
  unfold TempfilePool.finish_postiter
  by_cases h1 : P.postings ≠ [] ∨ P.runs ≠ []
  · rw [if_pos h1]
    by_cases h2 : P.postings ≠ [] ∧ P.runs = []
    · rw [if_pos h2]
      have hpperm : P.postings.Perm ps := by
        have hq := hperm
        rw [h2.2] at hq
        simpa using hq
      refine sorted_perm_unique pble_antisymm ?_ ?_ ?_
      · exact ((List.mergeSort_perm _ _).trans hpperm).trans
          (List.mergeSort_perm ps pble).symm
      · exact List.sorted_mergeSort pble_trans pble_total P.postings
      · exact List.sorted_mergeSort pble_trans pble_total ps
    · rw [if_neg h2]
      show imerge pble (P.dump_run.runs.map read_run) = ps.mergeSort pble
      obtain ⟨hinv1, hpost1⟩ := poolInv_dump_run ⟨hruns, hperm, hcount, hsize⟩
      obtain ⟨hruns1, hperm1, hcount1, hsize1⟩ := hinv1
      have hmapeq : P.dump_run.runs.map read_run =
          P.dump_run.runs.map (fun r => r.1) := by
        refine List.map_congr_left ?_
        intro r hr
        have hlen := (hruns1 r hr).1
        simp [read_run, hlen]
      have hsorted_runs : ∀ l ∈ P.dump_run.runs.map (fun r => r.1),
          List.Pairwise (fun a b => pble a b = true) l := by
        intro l hl
        obtain ⟨r, hr, rfl⟩ := List.mem_map.mp hl
        exact (hruns1 r hr).2
      obtain ⟨hip, his⟩ :=
        imerge_perm_sorted pble pble_trans pble_total _ hsorted_runs
      have hflat : ((P.dump_run.runs.map (fun r => r.1)).flatten).Perm ps := by
        have hq := hperm1
        rw [hpost1] at hq
        simpa using hq
      rw [hmapeq]
      refine sorted_perm_unique pble_antisymm ?_ his
        (List.sorted_mergeSort pble_trans pble_total ps)
      exact (hip.trans hflat).trans (List.mergeSort_perm ps pble).symm
  · rw [if_neg h1]
    push_neg at h1
    have hps : ps = [] := by
      have hq := hperm
      rw [h1.1, h1.2] at hq
      simpa using (List.perm_nil.mp hq.symm).symm
    rw [hps]
    simp

/-! ### write_postings (`pools.py`)

`write_postings` consumes the sorted posting sequence, groups consecutive
postings of one `(fieldname, text)` term, and emits one term-table entry per
group.  The term table and the posting-list writer are external
collaborators; their interaction is captured as an event trace, and the
effect of the writer on its own state is modelled from the spec. -/

/-- Modelled from the spec: the posting-list block writer collaborator
(`start(codec) -> handle`, `write(docNum, weight, payload, length)`,
`finish() -> postingCount`, `cancel()`, `asInline()`), whose implementation
module is not part of the embedded sources.  `posttotal` counts the postings
written since `start`; a block is flushed to the file each time `blocklimit`
postings are buffered, incrementing `blockcount` and advancing the abstract
file position; `as_inline` is backed by the postings still buffered. -/
structure PostWriter where
  blocklimit : Nat
  posttotal : Nat
  blockcount : Nat
  buffer : List (Nat × Int × String)
  filepos : Nat
deriving DecidableEq, Repr

/-- A fresh block writer with the given per-block posting limit. -/
def PostWriter.init (blocklimit : Nat) : PostWriter :=
  { blocklimit := blocklimit, posttotal := 0, blockcount := 0, buffer := [], filepos := 0 }

/-- `postwriter.start(format)`: begin a new posting list, returning its file
offset as the handle. -/
def PostWriter.start (w : PostWriter) : Nat × PostWriter :=
  (w.filepos, { w with posttotal := 0, blockcount := 0, buffer := [] })

/-- `postwriter.write(docnum, weight, valuestring, length)`: buffer one
posting, flushing a block when the buffer reaches `blocklimit`. -/
def PostWriter.write (w : PostWriter) (docnum : Nat) (weight : Int)
    (valuestring : String) (_length : Nat) : PostWriter :=
  let w1 := { w with posttotal := w.posttotal + 1,
                     buffer := w.buffer ++ [(docnum, weight, valuestring)] }
  if w1.blocklimit ≤ w1.buffer.length then
    { w1 with blockcount := w1.blockcount + 1, buffer := [], filepos := w1.filepos + 1 }
  else w1

/-- `postwriter.finish()`: flush the remaining buffer and return the posting
count of the list. -/
def PostWriter.finish (w : PostWriter) : Nat × PostWriter :=
  if w.buffer ≠ [] then
    (w.posttotal, { w with blockcount := w.blockcount + 1, buffer := [], filepos := w.filepos + 1 })
  else (w.posttotal, w)

/-- `postwriter.cancel()`: discard the buffered postings. -/
def PostWriter.cancel (w : PostWriter) : PostWriter := { w with buffer := [] }

/-- `postwriter.as_inline()`: the buffered postings, as the inline
representation of a short posting list. -/
def PostWriter.as_inline (w : PostWriter) : List (Nat × Int × String) := w.buffer

/-- The `offset` slot of a term-table value: either a block file offset or
inlined posting data. -/
inductive OffsetOrInline where
  | block (off : Nat)
  | inline (data : List (Nat × Int × String))
deriving DecidableEq, Repr

/-- One observable call made by `write_postings` on its collaborators. -/
inductive WPEvent where
  | start (format : Nat) (offset : Nat)
  | write (docnum : Nat) (weight : Int) (valuestring : String) (length : Nat)
  | finish (postcount : Nat)
  | cancel
  | add (key : String × String) (value : Int × OffsetOrInline × Nat)
deriving DecidableEq, Repr

/-- The loop state of `write_postings` after the first posting has opened a
group: the writer, the current term `(cf, ct)`, the accumulated weight, the
offset returned by `start` for the current group, the current format, and
the trace of collaborator calls so far. -/
structure WPState where
  pw : PostWriter
  cf : String
  ct : String
  cw : Int
  off : Nat
  fmt : Nat
  events : List WPEvent
deriving DecidableEq, Repr

/-- Closing an interior group: if the posting count is at or below the
inline limit and no block was flushed, capture the inline data and cancel
the writer; otherwise finish the writer and keep the offset handed out by
`start`.  Either way, add one term-table entry
`(key, (weight, offset, postcount))`. -/
def closeGroup (inlinelimit : Nat) (st : WPState) : WPState :=
  let postcount := st.pw.posttotal
  if postcount ≤ inlinelimit ∧ st.pw.blockcount < 1 then
    { st with pw := st.pw.cancel,
              events := st.events ++
                [.cancel, .add (st.cf, st.ct) (st.cw, .inline st.pw.as_inline, postcount)] }
  else
    let f := st.pw.finish
    { st with pw := f.2,
              events := st.events ++
                [.finish f.1, .add (st.cf, st.ct) (st.cw, .block st.off, postcount)] }

/-- Opening a new group for `(fieldname, text)`: refresh the format when the
field changed, reset the weight, and start the writer. -/
def openGroup (schema : String → Nat) (st : WPState) (fieldname text : String) : WPState :=
  let fmt := if fieldname ≠ st.cf then schema fieldname else st.fmt
  let s := st.pw.start
  { st with pw := s.2, cf := fieldname, ct := text, cw := 0, off := s.1, fmt := fmt,
            events := st.events ++ [.start fmt s.1] }

/-- Writing one posting of the current group: accumulate its weight and pass
it to the writer together with the field length of its document. -/
def writeOne (lengths : Nat → String → Nat) (st : WPState) (p : Posting) : WPState :=
  { st with cw := st.cw + p.2.2.2.1,
            pw := st.pw.write p.2.2.1 p.2.2.2.1 p.2.2.2.2 (lengths p.2.2.1 p.1),
            events := st.events ++
              [.write p.2.2.1 p.2.2.2.1 p.2.2.2.2 (lengths p.2.2.1 p.1)] }

/-- The main loop of `write_postings`, entered with an open group.  A posting
whose field or text exceeds the current one starts a new term (closing the
previous group); one whose key compares below the current one raises the
out-of-order exception; otherwise it extends the current group.  At end of
input the final group is closed by `postwriter.finish()` — storing the block
offset and the count returned by `finish` — with no inline check. -/
def wpLoop (schema : String → Nat) (lengths : Nat → String → Nat)
    (inlinelimit : Nat) (st : WPState) : List Posting → Except PyError (List WPEvent)
  | [] =>
    let f := st.pw.finish
    .ok (st.events ++ [.finish f.1, .add (st.cf, st.ct) (st.cw, .block st.off, f.1)])
  | p :: rest =>
    if strLt st.cf p.1 || strLt st.ct p.2.1 then
      wpLoop schema lengths inlinelimit
        (writeOne lengths (openGroup schema (closeGroup inlinelimit st) p.1 p.2.1) p) rest
    else if strLt p.1 st.cf || (decide (p.1 = st.cf) && strLt p.2.1 st.ct) then
      .error .exception
    else
      wpLoop schema lengths inlinelimit (writeOne lengths st p) rest

/-- `write_postings(schema, termtable, lengths, postwriter, postiter,
inlinelimit)`, returning the trace of term-table and writer calls (or the
out-of-order exception).  With no postings at all, `first` stays true and
nothing is called. -/
def write_postings (schema : String → Nat) (lengths : Nat → String → Nat)
    (inlinelimit : Nat) (pw : PostWriter) : List Posting → Except PyError (List WPEvent)
  | [] => .ok []
  | p :: rest =>
    let fmt := schema p.1
    let s := pw.start
    let st : WPState :=
      { pw := s.2, cf := p.1, ct := p.2.1, cw := 0, off := s.1, fmt := fmt,
        events := [.start fmt s.1] }
    wpLoop schema lengths inlinelimit (writeOne lengths st p) rest

/-- C10: with an empty posting iterator, `write_postings` performs no
collaborator call at all — no `termtable.add`, no `postwriter.start`,
`write` or `finish`; the trace is empty. -/
theorem write_postings_empty_frame (schema : String → Nat)
    (lengths : Nat → String → Nat) (inlinelimit : Nat) (pw : PostWriter) :
    write_postings schema lengths inlinelimit pw [] = .ok [] := rfl

/-- C3 counterexample: the posting key `("a", "y")` is lexicographically
strictly below the current term `("b", "x")` (its field name is smaller), yet
`write_postings` does not raise: because the text `"y"` exceeds the current
text `"x"`, the first branch (`fieldname > current or text > current`)
classifies the posting as a new term and the run completes normally. -/
theorem write_postings_out_of_order_not_raised :
    (write_postings (fun _ => 0) (fun _ _ => 0) 1 (PostWriter.init 128)
      [( "b", "x", 0, 1, ""), ( "a", "y", 1, 1, "")]).isOk = true := by decide

/-- C3 (amended): on a posting whose key is strictly below the current term,
the loop of `write_postings` raises the out-of-order exception exactly when
the text does not exceed the current text; a violating posting whose text
exceeds the current text is instead treated as the start of a new term
group. -/
theorem wpLoop_ordering_violation_detection (schema : String → Nat)
    (lengths : Nat → String → Nat) (inlinelimit : Nat) (st : WPState)
    (p : Posting) (rest : List Posting)
    (hviol : strLt p.1 st.cf = true ∨ (p.1 = st.cf ∧ strLt p.2.1 st.ct = true)) :
    (strLt st.ct p.2.1 = false →
      wpLoop schema lengths inlinelimit st (p :: rest) = .error .exception) ∧
    (strLt st.ct p.2.1 = true →
      wpLoop schema lengths inlinelimit st (p :: rest) =
        wpLoop schema lengths inlinelimit
          (writeOne lengths (openGroup schema (closeGroup inlinelimit st) p.1 p.2.1) p)
          rest) := by
  have hcf : strLt st.cf p.1 = false := by
    rcases hviol with h | ⟨heq, -⟩
    · cases hx : strLt st.cf p.1 with
      | false => rfl
      | true => exact absurd (strLt_strictTotal.asymm h hx) (fun x => x)
    · rw [heq]
      exact strLt_strictTotal.irrefl st.cf
  constructor
  · intro hct
    rcases hviol with h | ⟨heq, ht⟩
    · simp [wpLoop, hcf, hct, h]
    · simp [wpLoop, hcf, hct, heq, ht, strLt_strictTotal.irrefl]
  · intro hct
    simp [wpLoop, hct]

/-- Witness for the amended C3 at the concrete counterexample state: current
term `("b", "x")`, incoming posting `("a", "y", 1, 1, "")`. -/
theorem wpLoop_ordering_violation_detection_witness :
    (strLt "x" "y" = false →
      wpLoop (fun _ => 0) (fun _ _ => 0) 1
        { pw := PostWriter.init 128, cf := "b", ct := "x", cw := 0, off := 0,
          fmt := 0, events := [] }
        [( "a", "y", 1, 1, "")] = .error .exception) ∧
    (strLt "x" "y" = true →
      wpLoop (fun _ => 0) (fun _ _ => 0) 1
        { pw := PostWriter.init 128, cf := "b", ct := "x", cw := 0, off := 0,
          fmt := 0, events := [] }
        [( "a", "y", 1, 1, "")] =
        wpLoop (fun _ => 0) (fun _ _ => 0) 1
          (writeOne (fun _ _ => 0)
            (openGroup (fun _ => 0)
              (closeGroup 1
                { pw := PostWriter.init 128, cf := "b", ct := "x", cw := 0, off := 0,
                  fmt := 0, events := [] })
              "a" "y")
            ( "a", "y", 1, 1, ""))
          []) :=
  wpLoop_ordering_violation_detection (fun _ => 0) (fun _ _ => 0) 1
    { pw := PostWriter.init 128, cf := "b", ct := "x", cw := 0, off := 0,
      fmt := 0, events := [] }
    ( "a", "y", 1, 1, "") [] (Or.inl (by decide))

/-- C4 counterexample: a stream with a single posting.  The claim says the
final (here only) group follows the interior inline rule, so with
`postcount = 1 ≤ inlinelimit` and no flushed block the entry should carry
inline data; the code instead calls `postwriter.finish()` unconditionally at
end of input and stores the block offset. -/
theorem write_postings_last_group_not_inlined :
    write_postings (fun _ => 0) (fun _ _ => 0) 1 (PostWriter.init 128)
        [( "f", "t", 0, 1, "")] =
      .ok [.start 0 0, .write 0 1 "" 0, .finish 1,
           .add ( "f", "t") (1, .block 0, 1)] := rfl

theorem wpLoop_final_close (schema : String → Nat) (lengths : Nat → String → Nat)
    (inlinelimit : Nat) :
    ∀ (ps : List Posting) (st : WPState) (tr : List WPEvent),
      wpLoop schema lengths inlinelimit st ps = .ok tr →
      ∃ pre pc key w off,
        tr = pre ++ [.finish pc, .add key (w, OffsetOrInline.block off, pc)] := by
  intro ps
  induction ps with
  | nil =>
    intro st tr h
    simp only [wpLoop, Except.ok.injEq] at h
    exact ⟨st.events, st.pw.finish.1, (st.cf, st.ct), st.cw, st.off, h.symm⟩
  | cons p rest ih =>
    intro st tr h
    rw [wpLoop] at h
    split at h
    · exact ih _ _ h
    · split at h
      · exact absurd h (by simp)
      · exact ih _ _ h

/-- C4 (amended): at end of input with at least one posting seen,
`write_postings` always closes the final term group through
`postwriter.finish()`, storing the offset returned by `start` as a block
reference and the count returned by `finish` — the inline rule applies only
to interior groups, so a term with a single posting is stored inline only
when it is not the last term of the stream. -/
theorem write_postings_final_group_always_finished (schema : String → Nat)
    (lengths : Nat → String → Nat) (inlinelimit : Nat) (pw : PostWriter)
    (ps : List Posting) (tr : List WPEvent) (hne : ps ≠ [])
    (h : write_postings schema lengths inlinelimit pw ps = .ok tr) :
    ∃ pre pc key w off,
      tr = pre ++ [.finish pc, .add key (w, OffsetOrInline.block off, pc)] := by
  cases ps with
  | nil => exact absurd rfl hne
  | cons p rest =>
    rw [write_postings] at h
    exact wpLoop_final_close schema lengths inlinelimit rest _ tr h

/-- Witness for the amended C4 at the single-posting input. -/
theorem write_postings_final_group_always_finished_witness :
    ∃ pre pc key w off,
      ([.start 0 0, .write 0 1 "" 0, .finish 1,
        .add ( "f", "t") (1, .block 0, 1)] : List WPEvent) =
        pre ++ [.finish pc, .add key (w, OffsetOrInline.block off, pc)] :=
  write_postings_final_group_always_finished (fun _ => 0) (fun _ _ => 0) 1
    (PostWriter.init 128) [( "f", "t", 0, 1, "")]
    [.start 0 0, .write 0 1 "" 0, .finish 1, .add ( "f", "t") (1, .block 0, 1)]
    (by decide) rfl

/-! ### Per-term weight aggregation in `write_postings` (C9) -/

/-- The term key `(fieldname, text)` of a posting. -/
def pkey (p : Posting) : String × String := (p.1, p.2.1)

/-- The weight of a posting. -/
def pweight (p : Posting) : Int := p.2.2.2.1

/-- Python comparison `(f, t) <= (g, u)` on term keys. -/
def keyLe : (String × String) → (String × String) → Bool := lexLe strLt strLe

theorem keyLe_refl (a : String × String) : keyLe a a = true := by
  simp [keyLe, lexLe, strLt_strictTotal.irrefl, strLe]

theorem keyLe_trans (a b c : String × String) :
    keyLe a b → keyLe b c → keyLe a c :=
  lexLe_trans strLt_strictTotal strLe_trans a b c

theorem keyLe_antisymm (a b : String × String) :
    keyLe a b → keyLe b a → a = b :=
  lexLe_antisymm strLt_strictTotal strLe_antisymm a b

/-- A key that is `<=` another and different from it compares strictly below
it in at least one coordinate seen by the new-term test of the loop. -/
theorem keyLe_ne_gt {a b : String × String} (h : keyLe a b = true) (hne : b ≠ a) :
    (strLt a.1 b.1 || strLt a.2 b.2) = true := by
  unfold keyLe lexLe at h
  by_cases h1 : strLt a.1 b.1 = true
  · simp [h1]
  · rw [if_neg h1] at h
    by_cases h2 : a.1 = b.1
    · rw [if_pos h2] at h
      unfold strLe at h
      rcases Bool.or_eq_true .. |>.mp h with h3 | h3
      · simp [h3]
      · exfalso
        apply hne
        have h4 : a.2 = b.2 := of_decide_eq_true h3
        exact (Prod.ext h2 h4).symm
    · rw [if_neg h2] at h
      exact absurd h (by simp)

/-- The `(key, weight)` projections of the `termtable.add` calls in a
trace. -/
def entriesKW : List WPEvent → List ((String × String) × Int)
  | [] => []
  | .add k v :: rest => (k, v.1) :: entriesKW rest
  | .start _ _ :: rest => entriesKW rest
  | .write _ _ _ _ :: rest => entriesKW rest
  | .finish _ :: rest => entriesKW rest
  | .cancel :: rest => entriesKW rest

theorem entriesKW_append (a b : List WPEvent) :
    entriesKW (a ++ b) = entriesKW a ++ entriesKW b := by
  induction a with
  | nil => rfl
  | cons e a ih => cases e <;> simp [entriesKW, ih]

/-- Grouping of consecutive equal keys with summed weights, the reference
aggregation of a key-sorted posting stream: `aggAux k w ps` is the entry list
produced when the open group has key `k` and accumulated weight `w`. -/
def aggAux (k : String × String) (w : Int) : List Posting → List ((String × String) × Int)
  | [] => [(k, w)]
  | p :: ps =>
    if pkey p = k then aggAux k (w + pweight p) ps
    else (k, w) :: aggAux (pkey p) (pweight p) ps

theorem chain'_keyLe_all {k : String × String} {l : List (String × String)}
    (h : List.Chain' (fun a b => keyLe a b = true) (k :: l)) :
    ∀ x ∈ l, keyLe k x = true := by
  induction l generalizing k with
  | nil => intro x hx; simp at hx
  | cons b l ih =>
    intro x hx
    obtain ⟨hkb, htail⟩ := List.chain'_cons.mp h
    rcases List.mem_cons.mp hx with rfl | hx
    · exact hkb
    · exact keyLe_trans _ _ _ hkb (ih htail x hx)

theorem aggAux_keys_lower :
    ∀ (ps : List Posting) (k : String × String) (w : Int),
      List.Chain' (fun a b => keyLe a b = true) (k :: ps.map pkey) →
      ∀ e ∈ aggAux k w ps, keyLe k e.1 = true := by
  intro ps
  induction ps with
  | nil =>
    intro k w _ e he
    rcases List.mem_singleton.mp he with rfl
    exact keyLe_refl k
  | cons p ps ih =>
    intro k w hchain e he
    simp only [List.map_cons] at hchain
    obtain ⟨hkp, htail⟩ := List.chain'_cons.mp hchain
    by_cases heq : pkey p = k
    · rw [aggAux, if_pos heq] at he
      exact ih k (w + pweight p) (heq ▸ htail) e he
    · rw [aggAux, if_neg heq] at he
      rcases List.mem_cons.mp he with rfl | he
      · exact keyLe_refl k
      · exact keyLe_trans _ _ _ hkp (ih (pkey p) (pweight p) htail e he)

theorem aggAux_filter_spec :
    ∀ (ps : List Posting) (k : String × String) (w : Int) (K : String × String),
      List.Chain' (fun a b => keyLe a b = true) (k :: ps.map pkey) →
      ((aggAux k w ps).filter (fun e => e.1 = K)).map (fun e => e.2) =
        if K = k then [w + ((ps.filter (fun p => pkey p = K)).map pweight).sum]
        else if ps.filter (fun p => pkey p = K) = [] then []
        else [((ps.filter (fun p => pkey p = K)).map pweight).sum] := by
  intro ps
  induction ps with
  | nil =>
    intro k w K _
    by_cases hK : K = k
    · simp [aggAux, hK]
    · simp [aggAux, hK, Ne.symm hK]
  | cons p ps ih =>
    intro k w K hchain
    simp only [List.map_cons] at hchain
    obtain ⟨hkp, htail⟩ := List.chain'_cons.mp hchain
    by_cases heq : pkey p = k
    · rw [aggAux, if_pos heq, ih k (w + pweight p) K (heq ▸ htail)]
      by_cases hK : K = k
      · have hpK : pkey p = K := heq.trans hK.symm
        simp [hK, List.filter_cons, hpK, Int.add_assoc]
      · have hpK : pkey p ≠ K := fun hx => hK (hx.symm.trans heq)
        have hfc : List.filter (fun q => decide (pkey q = K)) (p :: ps)
            = List.filter (fun q => decide (pkey q = K)) ps := by
          simp [List.filter_cons, hpK]
        rw [if_neg hK, if_neg hK, hfc]
    · rw [aggAux, if_neg heq]
      by_cases hK : K = k
      · have hpK : pkey p ≠ K := fun hx => heq (hx.trans hK)
        have hinner : (aggAux (pkey p) (pweight p) ps).filter
            (fun e => decide (e.1 = K)) = [] := by
          rw [List.filter_eq_nil_iff]
          intro e he
          simp only [decide_eq_true_eq]
          intro hcon
          have hlow := aggAux_keys_lower ps (pkey p) (pweight p) htail e he
          rw [hcon, hK] at hlow
          exact heq (keyLe_antisymm _ _ hlow hkp)
        have hfilps : ps.filter (fun q => decide (pkey q = K)) = [] := by
          rw [List.filter_eq_nil_iff]
          intro q hq
          simp only [decide_eq_true_eq]
          intro hcon
          have hall := chain'_keyLe_all htail (pkey q) (List.mem_map_of_mem pkey hq)
          rw [hcon, hK] at hall
          exact heq (keyLe_antisymm _ _ hall hkp)
        rw [if_pos hK]
        have hkeep : List.filter (fun e => decide (e.1 = K))
            ((k, w) :: aggAux (pkey p) (pweight p) ps) = [(k, w)] := by
          rw [List.filter_cons]
          simp only [hinner]
          simp [hK.symm]
        have hfc : List.filter (fun q => decide (pkey q = K)) (p :: ps)
            = List.filter (fun q => decide (pkey q = K)) ps := by
          simp [List.filter_cons, hpK]
        rw [hkeep, hfc, hfilps]
        simp
      · have hknK : k ≠ K := Ne.symm hK
        have hfoo := ih (pkey p) (pweight p) K htail
        have hdropk : List.filter (fun e => decide (e.1 = K))
            ((k, w) :: aggAux (pkey p) (pweight p) ps)
            = List.filter (fun e => decide (e.1 = K)) (aggAux (pkey p) (pweight p) ps) := by
          simp [List.filter_cons, hknK]
        rw [hdropk, hfoo, if_neg hK]
        by_cases hpK : pkey p = K
        · have hfc : List.filter (fun q => decide (pkey q = K)) (p :: ps)
              = p :: List.filter (fun q => decide (pkey q = K)) ps := by
            simp [List.filter_cons, hpK]
          rw [if_pos hpK.symm, hfc, if_neg (List.cons_ne_nil _ _)]
          simp
        · have hKnp : K ≠ pkey p := fun hx => hpK hx.symm
          have hfc : List.filter (fun q => decide (pkey q = K)) (p :: ps)
              = List.filter (fun q => decide (pkey q = K)) ps := by
            simp [List.filter_cons, hpK]
          rw [if_neg hKnp, hfc]

theorem entriesKW_closeGroup (inlinelimit : Nat) (st : WPState) :
    entriesKW (closeGroup inlinelimit st).events =
      entriesKW st.events ++ [((st.cf, st.ct), st.cw)] := by
  simp only [closeGroup]
  split <;> simp [entriesKW_append, entriesKW]

theorem wpLoop_entriesKW (schema : String → Nat) (lengths : Nat → String → Nat)
    (inlinelimit : Nat) :
    ∀ (ps : List Posting) (st : WPState),
      List.Chain' (fun a b => keyLe a b = true) ((st.cf, st.ct) :: ps.map pkey) →
      ∃ tr, wpLoop schema lengths inlinelimit st ps = .ok tr ∧
        entriesKW tr = entriesKW st.events ++ aggAux (st.cf, st.ct) st.cw ps := by
  intro ps
  induction ps with
  | nil =>
    intro st _
    refine ⟨_, rfl, ?_⟩
    rw [entriesKW_append]
    simp [entriesKW, aggAux]
  | cons p rest ih =>
    intro st hchain
    simp only [List.map_cons] at hchain
    obtain ⟨hk, htail⟩ := List.chain'_cons.mp hchain
    by_cases heq : pkey p = (st.cf, st.ct)
    · have hf : p.1 = st.cf := congrArg Prod.fst heq
      have ht : p.2.1 = st.ct := congrArg Prod.snd heq
      have c1 : strLt st.cf p.1 = false := by
        rw [hf]; exact strLt_strictTotal.irrefl st.cf
      have c2 : strLt st.ct p.2.1 = false := by
        rw [ht]; exact strLt_strictTotal.irrefl st.ct
      have c3 : strLt p.1 st.cf = false := by
        rw [hf]; exact strLt_strictTotal.irrefl st.cf
      have c4 : strLt p.2.1 st.ct = false := by
        rw [ht]; exact strLt_strictTotal.irrefl st.ct
      have hstep : wpLoop schema lengths inlinelimit st (p :: rest) =
          wpLoop schema lengths inlinelimit (writeOne lengths st p) rest := by
        simp [wpLoop, c1, c2, c3, c4]
      obtain ⟨tr, htr, hent⟩ := ih (writeOne lengths st p) (by exact heq ▸ htail)
      refine ⟨tr, hstep ▸ htr, ?_⟩
      rw [hent]
      show entriesKW (st.events ++ [.write p.2.2.1 p.2.2.2.1 p.2.2.2.2
          (lengths p.2.2.1 p.1)]) ++
        aggAux (st.cf, st.ct) (st.cw + p.2.2.2.1) rest =
        entriesKW st.events ++ aggAux (st.cf, st.ct) st.cw (p :: rest)
      rw [entriesKW_append, aggAux, if_pos heq]
      simp [entriesKW, pweight]
    · have hgt : (strLt st.cf p.1 || strLt st.ct p.2.1) = true := by
        have hx := @keyLe_ne_gt (st.cf, st.ct) (pkey p) hk heq
        simpa [pkey] using hx
      have hstep : wpLoop schema lengths inlinelimit st (p :: rest) =
          wpLoop schema lengths inlinelimit
            (writeOne lengths (openGroup schema (closeGroup inlinelimit st) p.1 p.2.1) p)
            rest := by
        simp [wpLoop, hgt]
      obtain ⟨tr, htr, hent⟩ :=
        ih (writeOne lengths (openGroup schema (closeGroup inlinelimit st) p.1 p.2.1) p)
          (by exact htail)
      refine ⟨tr, hstep ▸ htr, ?_⟩
      rw [hent]
      show entriesKW (((closeGroup inlinelimit st).events ++
          [.start (if p.1 ≠ (closeGroup inlinelimit st).cf
              then schema p.1 else (closeGroup inlinelimit st).fmt)
            ((closeGroup inlinelimit st).pw.start.1)]) ++
          [.write p.2.2.1 p.2.2.2.1 p.2.2.2.2 (lengths p.2.2.1 p.1)]) ++
        aggAux (p.1, p.2.1) (0 + p.2.2.2.1) rest =
        entriesKW st.events ++ aggAux (st.cf, st.ct) st.cw (p :: rest)
      rw [entriesKW_append, entriesKW_append, entriesKW_closeGroup, aggAux, if_neg heq]
      simp only [entriesKW, pweight, List.append_assoc, List.singleton_append,
        List.nil_append, Int.zero_add]
      rfl

/-- C9: on a key-sorted posting stream, `write_postings` completes and, for
every term key, emits exactly one term-table entry when the key occurs in the
stream (and none otherwise), whose `totalWeight` is the sum of the weights of
the postings with that key (the accumulated weight is reset to 0 when the
group opens and incremented by each posting's weight). -/
theorem write_postings_term_weight_aggregation (schema : String → Nat)
    (lengths : Nat → String → Nat) (inlinelimit : Nat) (pw : PostWriter)
    (ps : List Posting)
    (hsorted : List.Chain' (fun p q => keyLe (pkey p) (pkey q) = true) ps) :
    ∃ tr, write_postings schema lengths inlinelimit pw ps = .ok tr ∧
      ∀ K : String × String,
        ((entriesKW tr).filter (fun e => e.1 = K)).map (fun e => e.2) =
          if ps.filter (fun p => pkey p = K) = [] then []
          else [((ps.filter (fun p => pkey p = K)).map pweight).sum] := by
  cases ps with
  | nil => exact ⟨[], rfl, fun K => by simp [entriesKW]⟩
  | cons p rest =>
    have hchain : List.Chain' (fun a b => keyLe a b = true) (pkey p :: rest.map pkey) := by
      have hx := (@List.chain'_map (String × String) Posting
        (fun a b => keyLe a b = true) pkey (p :: rest)).mpr hsorted
      simpa using hx
    obtain ⟨tr, htr, hent⟩ := wpLoop_entriesKW schema lengths inlinelimit rest
      (writeOne lengths
        { pw := pw.start.2, cf := p.1, ct := p.2.1, cw := 0,
          off := pw.start.1, fmt := schema p.1,
          events := [.start (schema p.1) pw.start.1] } p)
      (by exact hchain)
    refine ⟨tr, by simpa [write_postings] using htr, ?_⟩
    intro K
    rw [hent]
    have hspec := aggAux_filter_spec rest (pkey p) (0 + pweight p) K hchain
    show ((entriesKW ([.start (schema p.1) pw.start.1] ++
        [.write p.2.2.1 p.2.2.2.1 p.2.2.2.2 (lengths p.2.2.1 p.1)]) ++
        aggAux (p.1, p.2.1) (0 + p.2.2.2.1) rest).filter
          (fun e => e.1 = K)).map (fun e => e.2) = _
    rw [entriesKW_append]
    simp only [entriesKW, List.nil_append]
    rw [show aggAux (p.1, p.2.1) (0 + p.2.2.2.1) rest =
        aggAux (pkey p) (0 + pweight p) rest from rfl]
    rw [hspec]
    by_cases hpK : pkey p = K
    · rw [if_pos hpK.symm]
      have hfc : List.filter (fun q => decide (pkey q = K)) (p :: rest)
          = p :: List.filter (fun q => decide (pkey q = K)) rest := by
        simp [List.filter_cons, hpK]
      rw [hfc, if_neg (List.cons_ne_nil _ _)]
      simp [pweight]
    · have hKnp : K ≠ pkey p := fun hx => hpK hx.symm
      have hfc : List.filter (fun q => decide (pkey q = K)) (p :: rest)
          = List.filter (fun q => decide (pkey q = K)) rest := by
        simp [List.filter_cons, hpK]
      rw [if_neg hKnp, hfc]

/-- Witness for C9: three sorted postings, two of them for the term
`("f", "a")` with weights 2 and 3, one for `("f", "b")` with weight 5. -/
theorem write_postings_term_weight_aggregation_witness :
    ∃ tr, write_postings (fun _ => 0) (fun _ _ => 0) 1 (PostWriter.init 128)
        [( "f", "a", 0, 2, ""), ( "f", "a", 1, 3, ""), ( "f", "b", 0, 5, "")] = .ok tr ∧
      ∀ K : String × String,
        ((entriesKW tr).filter (fun e => e.1 = K)).map (fun e => e.2) =
          if ([( "f", "a", 0, 2, ""), ( "f", "a", 1, 3, ""),
              ( "f", "b", 0, 5, "")] : List Posting).filter
                (fun p => pkey p = K) = [] then []
          else [((([( "f", "a", 0, 2, ""), ( "f", "a", 1, 3, ""),
              ( "f", "b", 0, 5, "")] : List Posting).filter
                (fun p => pkey p = K)).map pweight).sum] :=
  write_postings_term_weight_aggregation (fun _ => 0) (fun _ _ => 0) 1
    (PostWriter.init 128)
    [( "f", "a", 0, 2, ""), ( "f", "a", 1, 3, ""), ( "f", "b", 0, 5, "")]
    (List.chain'_cons.mpr ⟨by decide, List.chain'_cons.mpr ⟨by decide,
      List.chain'_singleton _⟩⟩)


/-! ### MultiReader document addressing (`reading.py`)

`MultiReader.__init__` precomputes `doc_offsets`, the ascending prefix sums
of the per-segment document counts; `_document_segment` resolves a global
document number with `bisect_right`, and `_segment_and_docnum` subtracts the
chosen offset.  `bisect_right` is the Python standard library binary search,
modelled by its loop (`while lo < hi: mid = (lo+hi)//2; if x < a[mid]:
hi = mid else: lo = mid+1`). -/

/-- The loop of `bisect.bisect_right(a, x)` between `lo` and `hi`. -/
def bisectLoop (a : List Nat) (x : Nat) (lo hi : Nat) : Nat :=
  if h : lo < hi then
    let mid := (lo + hi) / 2
    if x < a.getD mid 0 then bisectLoop a x lo mid
    else bisectLoop a x (mid + 1) hi
  else lo
termination_by hi - lo
decreasing_by
  · omega
  · omega

/-- `bisect_right(a, x)`. -/
def bisect_right (a : List Nat) (x : Nat) : Nat := bisectLoop a x 0 a.length

/-- The prefix-sum loop of `MultiReader.__init__`: append the running base,
then add the document count of the segment. -/
def docOffsetsFrom (base : Nat) : List Nat → List Nat
  | [] => []
  | c :: cs => base :: docOffsetsFrom (base + c) cs

/-- `self.doc_offsets` for segments with the given document counts. -/
def doc_offsets (counts : List Nat) : List Nat := docOffsetsFrom 0 counts

/-- `MultiReader._document_segment(docnum)`. -/
def _document_segment (offsets : List Nat) (docnum : Nat) : Nat :=
  max 0 (bisect_right offsets docnum - 1)

/-- `MultiReader._segment_and_docnum(docnum)`. -/
def _segment_and_docnum (offsets : List Nat) (docnum : Nat) : Nat × Nat :=
  let segmentnum := _document_segment offsets docnum
  (segmentnum, docnum - offsets.getD segmentnum 0)

theorem bisectLoop_spec (a : List Nat) (x : Nat)
    (hsort : ∀ i j, i ≤ j → j < a.length → a.getD i 0 ≤ a.getD j 0) :
    ∀ (n lo hi : Nat), hi - lo ≤ n → lo ≤ hi → hi ≤ a.length →
      (∀ j, j < lo → a.getD j 0 ≤ x) →
      (∀ j, hi ≤ j → j < a.length → x < a.getD j 0) →
      (∀ j, j < bisectLoop a x lo hi → a.getD j 0 ≤ x) ∧
        (∀ j, bisectLoop a x lo hi ≤ j → j < a.length → x < a.getD j 0) ∧
        lo ≤ bisectLoop a x lo hi ∧ bisectLoop a x lo hi ≤ hi := by
  intro n
  induction n with
  | zero =>
    intro lo hi hfuel hlohi hhi hlow hhigh
    have hnlt : ¬lo < hi := by omega
    rw [bisectLoop, dif_neg hnlt]
    refine ⟨hlow, ?_, Nat.le_refl lo, hlohi⟩
    intro j hj hjlen
    exact hhigh j (by omega) hjlen
  | succ n ih =>
    intro lo hi hfuel hlohi hhi hlow hhigh
    by_cases h : lo < hi
    · rw [bisectLoop, dif_pos h]
      have hmidlt : (lo + hi) / 2 < hi := by omega
      have hmidge : lo ≤ (lo + hi) / 2 := by omega
      by_cases hx : x < a.getD ((lo + hi) / 2) 0
      · rw [if_pos hx]
        have hres := ih lo ((lo + hi) / 2) (by omega) (by omega) (by omega) hlow ?_
        · exact ⟨hres.1, hres.2.1, hres.2.2.1, by omega⟩
        · intro j hj hjlen
          exact Nat.lt_of_lt_of_le hx (hsort ((lo + hi) / 2) j hj hjlen)
      · rw [if_neg hx]
        have hxle : a.getD ((lo + hi) / 2) 0 ≤ x := Nat.le_of_not_lt hx
        have hres := ih ((lo + hi) / 2 + 1) hi (by omega) (by omega) hhi ?_ hhigh
        · exact ⟨hres.1, hres.2.1, by omega, hres.2.2.2⟩
        · intro j hj
          exact Nat.le_trans (hsort j ((lo + hi) / 2) (by omega) (by omega)) hxle
    · rw [bisectLoop, dif_neg h]
      refine ⟨hlow, ?_, Nat.le_refl lo, hlohi⟩
      intro j hj hjlen
      exact hhigh j (by omega) hjlen

theorem docOffsetsFrom_length (base : Nat) (cs : List Nat) :
    (docOffsetsFrom base cs).length = cs.length := by
  induction cs generalizing base with
  | nil => rfl
  | cons c cs ih => simp [docOffsetsFrom, ih]

theorem docOffsetsFrom_ge (cs : List Nat) :
    ∀ (base j : Nat), j < cs.length → base ≤ (docOffsetsFrom base cs).getD j 0 := by
  induction cs with
  | nil => intro base j hj; simp at hj
  | cons c cs ih =>
    intro base j hj
    cases j with
    | zero => simp [docOffsetsFrom]
    | succ j =>
      have := ih (base + c) j (by simpa using Nat.lt_of_succ_lt_succ hj)
      calc base ≤ base + c := Nat.le_add_right base c
        _ ≤ (docOffsetsFrom (base + c) cs).getD j 0 := this
        _ = (docOffsetsFrom base (c :: cs)).getD (j + 1) 0 := rfl

theorem docOffsetsFrom_mono (cs : List Nat) :
    ∀ (base i j : Nat), i ≤ j → j < cs.length →
      (docOffsetsFrom base cs).getD i 0 ≤ (docOffsetsFrom base cs).getD j 0 := by
  induction cs with
  | nil => intro base i j _ hj; simp at hj
  | cons c cs ih =>
    intro base i j hij hj
    cases i with
    | zero =>
      cases j with
      | zero => exact Nat.le_refl _
      | succ j =>
        have := docOffsetsFrom_ge cs (base + c) j (by simpa using Nat.lt_of_succ_lt_succ hj)
        calc (docOffsetsFrom base (c :: cs)).getD 0 0 = base := rfl
          _ ≤ base + c := Nat.le_add_right base c
          _ ≤ (docOffsetsFrom (base + c) cs).getD j 0 := this
    | succ i =>
      cases j with
      | zero => omega
      | succ j =>
        exact ih (base + c) i j (Nat.le_of_succ_le_succ hij)
          (by simpa using Nat.lt_of_succ_lt_succ hj)

/-- C7: for segments with the given document counts and any global document
number `d` below the total, `_segment_and_docnum` returns
`(i, d - doc_offsets[i])` where `i` is the rightmost segment index whose
offset is at most `d`. -/
theorem multiReader_segment_and_docnum (counts : List Nat) (d i : Nat)
    (_hd : d < counts.sum)
    (hi : i < counts.length)
    (hle : (doc_offsets counts).getD i 0 ≤ d)
    (hright : ∀ j, i < j → j < counts.length → d < (doc_offsets counts).getD j 0) :
    _segment_and_docnum (doc_offsets counts) d =
      (i, d - (doc_offsets counts).getD i 0) := by
  have hlen : (doc_offsets counts).length = counts.length :=
    docOffsetsFrom_length 0 counts
  have hsort : ∀ a b, a ≤ b → b < (doc_offsets counts).length →
      (doc_offsets counts).getD a 0 ≤ (doc_offsets counts).getD b 0 := by
    intro a b hab hb
    exact docOffsetsFrom_mono counts 0 a b hab (hlen ▸ hb)
  have hspec := bisectLoop_spec (doc_offsets counts) d hsort
    (doc_offsets counts).length 0 (doc_offsets counts).length
    (Nat.le_refl _) (Nat.zero_le _) (Nat.le_refl _) (by omega) (by omega)
  obtain ⟨hlo, hhigh2, -, hub⟩ := hspec
  have hloop : bisectLoop (doc_offsets counts) d 0 (doc_offsets counts).length =
      bisect_right (doc_offsets counts) d := rfl
  simp only [hloop] at hlo hhigh2 hub
  have hr : bisect_right (doc_offsets counts) d = i + 1 := by
    have hub2 : bisect_right (doc_offsets counts) d ≤ counts.length := by
      rw [← hlen]; exact hub
    have hri : i + 1 ≤ bisect_right (doc_offsets counts) d := by
      by_contra hc
      push_neg at hc
      have hx := hhigh2 i (by omega) (by omega)
      omega
    by_contra hc
    have hi2 : i + 2 ≤ bisect_right (doc_offsets counts) d := by omega
    have hx := hlo (i + 1) (by omega)
    have hy := hright (i + 1) (by omega) (by omega)
    omega
  simp only [_segment_and_docnum, _document_segment, hr]
  have hmax : max 0 (i + 1 - 1) = i := by omega
  rw [hmax]

/-- Witness for C7 at the spec example: counts `[3, 5, 2]`, global document
7 resolves to segment 1, local document 4. -/
theorem multiReader_segment_and_docnum_witness :
    _segment_and_docnum (doc_offsets [3, 5, 2]) 7 =
      (1, 7 - (doc_offsets [3, 5, 2]).getD 1 0) :=
  multiReader_segment_and_docnum [3, 5, 2] 7 1 (by decide) (by decide)
    (by decide)
    (by
      intro j h1 h2
      simp only [List.length_cons, List.length_nil] at h2
      have hj : j = 2 := by omega
      subst hj
      decide)


/-! ### Temporary-directory lifecycle (`PoolBase` / `TempfilePool` cleanup)

`PoolBase.__init__` stores the caller-supplied directory (or `None`) and sets
`_using_tempdir = dir is not None`; `_make_dir` lazily creates a fresh
temporary directory when none was supplied (leaving `_using_tempdir`
untouched); `TempfilePool.cleanup` removes every recorded run file and then
calls `_clean_temp_dir`, which removes the directory only when
`_using_tempdir` is set, a directory is recorded and it exists on disk —
`os.rmdir` succeeding only on an empty directory, with the `OSError` of a
nonempty one swallowed.  `TempfilePool.cancel` just calls `cleanup`.
Filesystem state is modelled by the existence of the pool directory, the run
files inside it, and a count of files the pool did not create. -/

/-- The pool directory bookkeeping plus the run filenames in `self.runs`. -/
structure PoolDir where
  dir : Option String
  using_tempdir : Bool
  runs : List String
deriving DecidableEq, Repr

/-- The filesystem as the pool can affect it. -/
structure PoolFS where
  dirExists : Bool
  runfilesOnDisk : List String
  otherfiles : Nat
deriving DecidableEq, Repr

/-- `PoolBase.__init__(schema, dir, basename)`: note the source sets
`self._using_tempdir = dir is not None`, recording that the caller supplied
the directory. -/
def poolDirInit (dir : Option String) : PoolDir :=
  { dir := dir, using_tempdir := dir.isSome, runs := [] }

/-- `PoolBase._make_dir`: create a fresh temporary directory when none is
recorded.  `_using_tempdir` is not updated. -/
def _make_dir (tempname : String) : PoolDir × PoolFS → PoolDir × PoolFS
  | (pd, fs) =>
    match pd.dir with
    | none => ({ pd with dir := some tempname }, { fs with dirExists := true })
    | some _ => (pd, fs)

/-- One `dump_run` as far as the filesystem is concerned: ensure the
directory exists, then create one run file inside it and record it in
`self.runs`. -/
def spillRun (tempname filename : String) (s : PoolDir × PoolFS) : PoolDir × PoolFS :=
  let s1 := _make_dir tempname s
  ({ s1.1 with runs := s1.1.runs ++ [filename] },
   { s1.2 with runfilesOnDisk := s1.2.runfilesOnDisk ++ [filename] })

/-- `PoolBase._clean_temp_dir`: remove the directory iff `_using_tempdir`
holds, a directory is recorded and it exists; `os.rmdir` only succeeds on an
empty directory (the `OSError` on a nonempty one is swallowed). -/
def _clean_temp_dir : PoolDir × PoolFS → PoolDir × PoolFS
  | (pd, fs) =>
    if pd.using_tempdir ∧ pd.dir ≠ none ∧ fs.dirExists then
      if fs.runfilesOnDisk = [] ∧ fs.otherfiles = 0 then
        (pd, { fs with dirExists := false })
      else (pd, fs)
    else (pd, fs)

/-- `TempfilePool.cleanup`: delete every run file still on disk, then
`_clean_temp_dir`. -/
def cleanup (s : PoolDir × PoolFS) : PoolDir × PoolFS :=
  _clean_temp_dir
    (s.1, { s.2 with runfilesOnDisk :=
      s.2.runfilesOnDisk.filter (fun f => decide (f ∉ s.1.runs)) })

/-- `TempfilePool.cancel` just calls `cleanup`. -/
def cancel (s : PoolDir × PoolFS) : PoolDir × PoolFS := cleanup s

/-- C8 evaluation: after `cleanup`, every recorded run file is gone (that
part of the claim holds), but the directory logic is inverted — a pool built
with `dir=None` that spilled once leaves its self-created empty temporary
directory on disk, while a pool built over an empty caller-supplied
directory removes that directory.  The claim (and the intent signalled by
the name `_using_tempdir` and the comment in `_clean_temp_dir`) says the
opposite on both counts: `__init__` sets `_using_tempdir = dir is not None`
where `dir is None` was meant. -/
theorem tempfilePool_cleanup_dir_inverted :
    (cleanup (spillRun "T" "r1"
        (poolDirInit none,
         { dirExists := false, runfilesOnDisk := [], otherfiles := 0 }))).2.runfilesOnDisk
      = [] ∧
    (cleanup (spillRun "T" "r1"
        (poolDirInit none,
         { dirExists := false, runfilesOnDisk := [], otherfiles := 0 }))).2.dirExists
      = true ∧
    (cleanup
        (poolDirInit (some "D"),
         { dirExists := true, runfilesOnDisk := [], otherfiles := 0 })).2.dirExists
      = false := by
  refine ⟨rfl, rfl, rfl⟩


/-! ### MultiReader._merge_iters (`reading.py`)

`_merge_iters` merges per-segment term iterators, each yielding
`(fieldnum, text, docfreq, termcount)` tuples with strictly ascending
`(fieldnum, text)` keys, summing `docfreq` and `termcount` across segments
for equal keys.  The initial fill calls `it.next()` on every iterator with
no `StopIteration` handler; inside a generator an escaping `StopIteration`
silently terminates the generator, so one empty input iterator makes the
whole merge yield nothing.  The main loop repeatedly reads the key of the
heap root, drains every entry carrying that key (each drained entry is
replaced by the next entry of its iterator via `heapreplace`, or dropped
via `heappop` when exhausted), and yields the summed record.  As before the
heap is modelled as a list of `(head, rest)` pairs; on strictly ascending
inputs every entry whose key equals the minimum is a head, so one round
drains exactly the heads carrying the minimal key. -/

/-- A term-iterator tuple `(fieldnum, text, docfreq, termcount)`. -/
abbrev TermEntry := Nat × String × Nat × Nat

/-- The `(fieldnum, text)` key of a term tuple. -/
def entryKey (e : TermEntry) : Nat × String := (e.1, e.2.1)

/-- The document frequency of a term tuple. -/
def entryDf (e : TermEntry) : Nat := e.2.2.1

/-- The collection frequency (term count) of a term tuple. -/
def entryTc (e : TermEntry) : Nat := e.2.2.2

/-- Strict lexicographic comparison `p < q` on pairs, one step. -/
def lexLt {α β : Type _} (ltA : α → α → Bool) [DecidableEq α]
    (ltB : β → β → Bool) (p q : α × β) : Bool :=
  ltA p.1 q.1 || (decide (p.1 = q.1) && ltB p.2 q.2)

theorem lexLt_strictTotal {α β : Type _} {ltA : α → α → Bool} [DecidableEq α]
    {ltB : β → β → Bool} (hA : IsStrictTotalB ltA) (hB : IsStrictTotalB ltB) :
    IsStrictTotalB (lexLt ltA ltB) := by
  constructor
  · intro a
    simp [lexLt, hA.irrefl, hB.irrefl]
  · intro a b c hab hbc
    simp only [lexLt, Bool.or_eq_true, Bool.and_eq_true, decide_eq_true_eq] at *
    rcases hab with h1 | ⟨e1, h1⟩ <;> rcases hbc with h2 | ⟨e2, h2⟩
    · exact Or.inl (hA.trans _ _ _ h1 h2)
    · exact Or.inl (e2 ▸ h1)
    · exact Or.inl (by rw [e1]; exact h2)
    · exact Or.inr ⟨e1.trans e2, hB.trans _ _ _ h1 h2⟩
  · intro a b
    rcases hA.total a.1 b.1 with h | h | h
    · exact Or.inl (by simp [lexLt, h])
    · rcases hB.total a.2 b.2 with h2 | h2 | h2
      · exact Or.inl (by simp [lexLt, h, h2])
      · exact Or.inr (Or.inl (Prod.ext h h2))
      · exact Or.inr (Or.inr (by simp [lexLt, h.symm, h2]))
    · exact Or.inr (Or.inr (by simp [lexLt, h]))

/-- Python comparison `(fieldnum, text) < (fieldnum2, text2)` on term keys. -/
def tkeyLt : (Nat × String) → (Nat × String) → Bool := lexLt natLt strLt

theorem tkeyLt_strictTotal : IsStrictTotalB tkeyLt :=
  lexLt_strictTotal natLt_strictTotal strLt_strictTotal

/-- Total number of entries remaining on the heap. -/
def termHeapSize (cs : List (TermEntry × List TermEntry)) : Nat :=
  (cs.map (fun c => c.2.length + 1)).sum

/-- The least head key on the heap (the key of the heap root),
folded from an initial candidate. -/
def minHeadKey : List (TermEntry × List TermEntry) → (Nat × String) → Nat × String
  | [], acc => acc
  | c :: cs, acc =>
    minHeadKey cs (if tkeyLt (entryKey c.1) acc then entryKey c.1 else acc)

/-- The inner `while` loop of `_merge_iters` for one key: every head entry
carrying the key is consumed, its `docfreq` and `termcount` added to the
sums, and its iterator advanced (`heapreplace`) or dropped (`heappop`).
Returns the docfreq sum, the termcount sum and the remaining heap. -/
def drainKey (key : Nat × String) :
    List (TermEntry × List TermEntry) →
      Nat × Nat × List (TermEntry × List TermEntry)
  | [] => (0, 0, [])
  | (e, it) :: cs =>
    let r := drainKey key cs
    if entryKey e = key then
      match it with
      | [] => (r.1 + entryDf e, r.2.1 + entryTc e, r.2.2)
      | e2 :: it2 => (r.1 + entryDf e, r.2.1 + entryTc e, (e2, it2) :: r.2.2)
    else (r.1, r.2.1, (e, it) :: r.2.2)

/-- The outer loop of `_merge_iters`: while entries remain, drain the key of
the heap root and yield the summed record.  The fuel counts consumed
entries; `_merge_iters` supplies enough to drain the heap. -/
def mergeItersLoop : Nat → List (TermEntry × List TermEntry) → List TermEntry
  | _, [] => []
  | 0, _ => []
  | fuel + 1, c :: cs =>
    let key := minHeadKey cs (entryKey c.1)
    let r := drainKey key (c :: cs)
    (key.1, key.2, r.1, r.2.1) :: mergeItersLoop fuel r.2.2

/-- `MultiReader._merge_iters(iterlist)`.  The initial fill calls
`it.next()` unprotected, so any empty iterator ends the generator before the
first yield: the result is empty.  Otherwise every iterator contributes its
head to the heap and the merge loop runs. -/
def _merge_iters (its : List (List TermEntry)) : List TermEntry :=
  if its.any (fun l => l.isEmpty) then []
  else
    let current := its.filterMap toHeadPair
    mergeItersLoop (termHeapSize current) current

/-- C6 counterexample: one segment holds the term record `(0, "a", 2, 5)`
and a second segment is empty.  The claim says the merge yields one tuple
per distinct key present in any input — here `[(0, "a", 2, 5)]` — but the
unprotected `it.next()` on the empty iterator terminates the generator
during the initial fill and the merge yields nothing. -/
theorem merge_iters_empty_iterator_kills_merge :
    _merge_iters [[(0, "a", 2, 5)], []] = [] ∧
      ([] : List TermEntry) ≠ [(0, "a", 2, 5)] := ⟨rfl, by decide⟩


/-- Strict key order lifted to term tuples. -/
def entryLt (a b : TermEntry) : Bool := tkeyLt (entryKey a) (entryKey b)

/-- All entries remaining on the heap (each pair holds its head plus the
rest of its iterator). -/
def heapFlattenT (cs : List (TermEntry × List TermEntry)) : List TermEntry :=
  (cs.map (fun c => c.1 :: c.2)).flatten

theorem head_mem_heapFlattenT {cs : List (TermEntry × List TermEntry)}
    {c : TermEntry × List TermEntry} (hc : c ∈ cs) : c.1 ∈ heapFlattenT cs := by
  unfold heapFlattenT
  rw [List.mem_flatten]
  exact ⟨c.1 :: c.2, List.mem_map_of_mem _ hc, by simp⟩

theorem minHeadKey_attained :
    ∀ (cs : List (TermEntry × List TermEntry)) (acc : Nat × String),
      minHeadKey cs acc = acc ∨ ∃ c ∈ cs, minHeadKey cs acc = entryKey c.1 := by
  intro cs
  induction cs with
  | nil => intro acc; exact Or.inl rfl
  | cons c cs ih =>
    intro acc
    simp only [minHeadKey]
    by_cases h : tkeyLt (entryKey c.1) acc = true
    · rw [if_pos h]
      rcases ih (entryKey c.1) with h2 | ⟨c', hc', h2⟩
      · exact Or.inr ⟨c, by simp, h2⟩
      · exact Or.inr ⟨c', by simp [hc'], h2⟩
    · rw [if_neg h]
      rcases ih acc with h2 | ⟨c', hc', h2⟩
      · exact Or.inl h2
      · exact Or.inr ⟨c', by simp [hc'], h2⟩

theorem minHeadKey_le_acc :
    ∀ (cs : List (TermEntry × List TermEntry)) (acc : Nat × String),
      tkeyLt acc (minHeadKey cs acc) = false := by
  intro cs
  induction cs with
  | nil =>
    intro acc
    exact tkeyLt_strictTotal.irrefl acc
  | cons c cs ih =>
    intro acc
    simp only [minHeadKey]
    by_cases h : tkeyLt (entryKey c.1) acc = true
    · rw [if_pos h]
      cases hx : tkeyLt acc (minHeadKey cs (entryKey c.1)) with
      | false => rfl
      | true =>
        exact absurd (tkeyLt_strictTotal.trans _ _ _ h hx)
          (by simp [ih (entryKey c.1)])
    · rw [if_neg h]
      exact ih acc

theorem minHeadKey_le_heads :
    ∀ (cs : List (TermEntry × List TermEntry)) (acc : Nat × String)
      (c : TermEntry × List TermEntry), c ∈ cs →
      tkeyLt (entryKey c.1) (minHeadKey cs acc) = false := by
  intro cs
  induction cs with
  | nil => intro acc c hc; simp at hc
  | cons c0 cs ih =>
    intro acc c hc
    simp only [minHeadKey]
    rcases List.mem_cons.mp hc with rfl | hc
    · by_cases h : tkeyLt (entryKey c.1) acc = true
      · rw [if_pos h]
        exact minHeadKey_le_acc cs (entryKey c.1)
      · rw [if_neg h]
        cases hx : tkeyLt (entryKey c.1) (minHeadKey cs acc) with
        | false => rfl
        | true =>
          rcases tkeyLt_strictTotal.total acc (minHeadKey cs acc) with h1 | h1 | h1
          · exact absurd h1 (by simp [minHeadKey_le_acc cs acc])
          · rw [← h1] at hx
            exact absurd hx (by simp [h])
          · exact absurd (tkeyLt_strictTotal.trans _ _ _ hx h1) (by simp [h])
    · by_cases h : tkeyLt (entryKey c0.1) acc = true
      · rw [if_pos h]
        exact ih (entryKey c0.1) c hc
      · rw [if_neg h]
        exact ih acc c hc

theorem chain'_entryLt_all {h : TermEntry} {l : List TermEntry}
    (hc : List.Chain' (fun a b => entryLt a b = true) (h :: l)) :
    ∀ e ∈ l, entryLt h e = true := by
  induction l generalizing h with
  | nil => intro e he; simp at he
  | cons b l ih =>
    intro e he
    obtain ⟨hhb, htail⟩ := List.chain'_cons.mp hc
    rcases List.mem_cons.mp he with rfl | he
    · exact hhb
    · exact tkeyLt_strictTotal.trans _ _ _ hhb (ih htail e he)

theorem drainKey_sums (k : Nat × String) :
    ∀ cs : List (TermEntry × List TermEntry),
      (drainKey k cs).1 =
        ((cs.filter (fun c => decide (entryKey c.1 = k))).map
          (fun c => entryDf c.1)).sum ∧
      (drainKey k cs).2.1 =
        ((cs.filter (fun c => decide (entryKey c.1 = k))).map
          (fun c => entryTc c.1)).sum := by
  intro cs
  induction cs with
  | nil => exact ⟨rfl, rfl⟩
  | cons c cs ih =>
    obtain ⟨e, it⟩ := c
    simp only [drainKey]
    by_cases h : entryKey e = k
    · rw [if_pos h]
      cases it with
      | nil =>
        simp only [List.filter_cons, h, decide_True, if_true, List.map_cons,
          List.sum_cons]
        exact ⟨by rw [ih.1]; omega, by rw [ih.2]; omega⟩
      | cons e2 it2 =>
        simp only [List.filter_cons, h, decide_True, if_true, List.map_cons,
          List.sum_cons]
        exact ⟨by rw [ih.1]; omega, by rw [ih.2]; omega⟩
    · rw [if_neg h]
      simp only [List.filter_cons, h, decide_False, if_false]
      exact ih

theorem drainKey_rest_flatten (k : Nat × String) :
    ∀ cs : List (TermEntry × List TermEntry),
      heapFlattenT (drainKey k cs).2.2 =
        (cs.map (fun c => if entryKey c.1 = k then c.2 else c.1 :: c.2)).flatten := by
  intro cs
  induction cs with
  | nil => rfl
  | cons c cs ih =>
    obtain ⟨e, it⟩ := c
    simp only [drainKey, List.map_cons, List.flatten_cons]
    by_cases h : entryKey e = k
    · rw [if_pos h, if_pos h]
      cases it with
      | nil => simpa using ih
      | cons e2 it2 =>
        simp only [heapFlattenT, List.map_cons, List.flatten_cons] at ih ⊢
        rw [ih]
    · rw [if_neg h, if_neg h]
      simp only [heapFlattenT, List.map_cons, List.flatten_cons] at ih ⊢
      rw [ih]

theorem drainKey_inv (k : Nat × String) :
    ∀ cs : List (TermEntry × List TermEntry),
      (∀ c ∈ cs, List.Chain' (fun a b => entryLt a b = true) (c.1 :: c.2)) →
      ∀ c' ∈ (drainKey k cs).2.2,
        List.Chain' (fun a b => entryLt a b = true) (c'.1 :: c'.2) := by
  intro cs
  induction cs with
  | nil => intro _ c' hc'; simp [drainKey] at hc'
  | cons c cs ih =>
    intro hch c' hc'
    obtain ⟨e, it⟩ := c
    simp only [drainKey] at hc'
    have hhead := hch (e, it) (by simp)
    have htailh : ∀ c ∈ cs, List.Chain' (fun a b => entryLt a b = true) (c.1 :: c.2) :=
      fun c hc => hch c (by simp [hc])
    by_cases h : entryKey e = k
    · rw [if_pos h] at hc'
      cases it with
      | nil => exact ih htailh c' hc'
      | cons e2 it2 =>
        rcases List.mem_cons.mp hc' with rfl | hc'
        · exact (List.chain'_cons.mp hhead).2
        · exact ih htailh c' hc'
    · rw [if_neg h] at hc'
      rcases List.mem_cons.mp hc' with rfl | hc'
      · exact hhead
      · exact ih htailh c' hc'

theorem drainKey_size_le (k : Nat × String) :
    ∀ cs : List (TermEntry × List TermEntry),
      termHeapSize (drainKey k cs).2.2 ≤ termHeapSize cs := by
  intro cs
  induction cs with
  | nil => simp [drainKey, termHeapSize]
  | cons c cs ih =>
    obtain ⟨e, it⟩ := c
    simp only [drainKey]
    by_cases h : entryKey e = k
    · rw [if_pos h]
      cases it with
      | nil =>
        simp only [termHeapSize, List.map_cons, List.sum_cons]
        simp only [termHeapSize] at ih
        omega
      | cons e2 it2 =>
        simp only [termHeapSize, List.map_cons, List.sum_cons, List.length_cons]
        simp only [termHeapSize] at ih
        omega
    · rw [if_neg h]
      simp only [termHeapSize, List.map_cons, List.sum_cons]
      simp only [termHeapSize] at ih
      omega

theorem drainKey_size_lt (k : Nat × String) :
    ∀ cs : List (TermEntry × List TermEntry),
      (∃ c ∈ cs, entryKey c.1 = k) →
      termHeapSize (drainKey k cs).2.2 < termHeapSize cs := by
  intro cs
  induction cs with
  | nil => intro h; simp at h
  | cons c cs ih =>
    intro ⟨c0, hc0, hk0⟩
    obtain ⟨e, it⟩ := c
    have hle := drainKey_size_le k cs
    simp only [drainKey]
    by_cases h : entryKey e = k
    · rw [if_pos h]
      cases it with
      | nil =>
        simp only [termHeapSize, List.map_cons, List.sum_cons] at *
        omega
      | cons e2 it2 =>
        simp only [termHeapSize, List.map_cons, List.sum_cons, List.length_cons] at *
        omega
    · rw [if_neg h]
      rcases List.mem_cons.mp hc0 with rfl | hc0
      · exact absurd hk0 h
      · have := ih ⟨c0, hc0, hk0⟩
        simp only [termHeapSize, List.map_cons, List.sum_cons] at *
        omega


theorem tails_no_key (k : Nat × String) :
    ∀ cs : List (TermEntry × List TermEntry),
      (∀ c ∈ cs, List.Chain' (fun a b => entryLt a b = true) (c.1 :: c.2)) →
      (∀ c ∈ cs, tkeyLt (entryKey c.1) k = false) →
      ∀ c ∈ cs, c.2.filter (fun e => decide (entryKey e = k)) = [] := by
  intro cs hch hlb c hc
  rw [List.filter_eq_nil_iff]
  intro e he
  simp only [decide_eq_true_eq]
  intro hcon
  have hlt := chain'_entryLt_all (hch c hc) e he
  rw [entryLt, hcon] at hlt
  rw [hlb c hc] at hlt
  exact Bool.false_ne_true hlt

theorem heapFlattenT_filter_eq_heads (k : Nat × String) :
    ∀ cs : List (TermEntry × List TermEntry),
      (∀ c ∈ cs, c.2.filter (fun e => decide (entryKey e = k)) = []) →
      (heapFlattenT cs).filter (fun e => decide (entryKey e = k)) =
        (cs.filter (fun c => decide (entryKey c.1 = k))).map (fun c => c.1) := by
  intro cs
  induction cs with
  | nil => intro _; rfl
  | cons c cs ih =>
    intro htails
    have htail := htails c (by simp)
    have hrest : ∀ c' ∈ cs, c'.2.filter (fun e => decide (entryKey e = k)) = [] :=
      fun c' hc' => htails c' (by simp [hc'])
    have hr := ih hrest
    simp only [heapFlattenT, List.map_cons, List.flatten_cons, List.filter_append,
      List.filter_cons] at hr ⊢
    by_cases h : entryKey c.1 = k
    · simp only [h, decide_True, if_true, htail, List.nil_append]
      rw [hr]
      simp
    · simp only [h, decide_False, if_false, htail, List.nil_append]
      rw [hr]
      simp

theorem drainKey_flatten_filter_ne (k K : Nat × String) (hne : K ≠ k) :
    ∀ cs : List (TermEntry × List TermEntry),
      (heapFlattenT (drainKey k cs).2.2).filter (fun e => decide (entryKey e = K)) =
        (heapFlattenT cs).filter (fun e => decide (entryKey e = K)) := by
  intro cs
  induction cs with
  | nil => rfl
  | cons c cs ih =>
    obtain ⟨e, it⟩ := c
    simp only [drainKey]
    by_cases h : entryKey e = k
    · rw [if_pos h]
      have hek : ¬(entryKey e = K) := fun hx => hne (hx.symm.trans h)
      cases it with
      | nil =>
        simp only [heapFlattenT, List.map_cons, List.flatten_cons,
          List.filter_append, List.filter_cons, hek, decide_False, if_false,
          List.nil_append] at ih ⊢
        simpa using ih
      | cons e2 it2 =>
        simp only [heapFlattenT, List.map_cons, List.flatten_cons,
          List.filter_append, List.filter_cons, hek, decide_False, if_false,
          List.nil_append] at ih ⊢
        rw [ih]
        simp
    · rw [if_neg h]
      simp only [heapFlattenT, List.map_cons, List.flatten_cons,
        List.filter_append, List.filter_cons] at ih ⊢
      rw [ih]

theorem tkeyLt_min_of_not_lt {k a : Nat × String} (hne : a ≠ k)
    (hnlt : tkeyLt a k = false) : tkeyLt k a = true := by
  rcases tkeyLt_strictTotal.total k a with h | h | h
  · exact h
  · exact absurd h.symm hne
  · exact absurd h (by simp [hnlt])

theorem tkeyLt_min_trans {k h x : Nat × String} (hnlt : tkeyLt h k = false)
    (hlt : tkeyLt h x = true) : tkeyLt k x = true := by
  rcases tkeyLt_strictTotal.total k h with h1 | h1 | h1
  · exact tkeyLt_strictTotal.trans _ _ _ h1 hlt
  · rw [h1]; exact hlt
  · exact absurd h1 (by simp [hnlt])

theorem drainKey_flatten_keys_gt (k : Nat × String) :
    ∀ cs : List (TermEntry × List TermEntry),
      (∀ c ∈ cs, List.Chain' (fun a b => entryLt a b = true) (c.1 :: c.2)) →
      (∀ c ∈ cs, tkeyLt (entryKey c.1) k = false) →
      ∀ e ∈ heapFlattenT (drainKey k cs).2.2, tkeyLt k (entryKey e) = true := by
  intro cs
  induction cs with
  | nil => intro _ _ e he; simp [drainKey, heapFlattenT] at he
  | cons c cs ih =>
    intro hch hlb e he
    obtain ⟨e0, it⟩ := c
    have hhead := hch (e0, it) (by simp)
    have hlb0 := hlb (e0, it) (by simp)
    have hchr : ∀ c ∈ cs, List.Chain' (fun a b => entryLt a b = true) (c.1 :: c.2) :=
      fun c hc => hch c (by simp [hc])
    have hlbr : ∀ c ∈ cs, tkeyLt (entryKey c.1) k = false :=
      fun c hc => hlb c (by simp [hc])
    have htail_gt : ∀ x ∈ it, tkeyLt k (entryKey x) = true := by
      intro x hx
      have hlt := chain'_entryLt_all hhead x hx
      rw [entryLt] at hlt
      exact tkeyLt_min_trans hlb0 hlt
    simp only [drainKey] at he
    by_cases h : entryKey e0 = k
    · rw [if_pos h] at he
      cases it with
      | nil => exact ih hchr hlbr e he
      | cons e2 it2 =>
        simp only [heapFlattenT, List.map_cons, List.flatten_cons,
          List.mem_append, List.mem_cons] at he
        rcases he with he | he
        · rcases he with rfl | he
          · exact htail_gt e (by simp)
          · exact htail_gt e (by simp [he])
        · exact ih hchr hlbr e (by simpa [heapFlattenT] using he)
    · rw [if_neg h] at he
      simp only [heapFlattenT, List.map_cons, List.flatten_cons,
        List.mem_append, List.mem_cons] at he
      rcases he with he | he
      · rcases he with rfl | he
        · exact tkeyLt_min_of_not_lt h hlb0
        · exact htail_gt e he
      · exact ih hchr hlbr e (by simpa [heapFlattenT] using he)

theorem drainKey_flatten_subset (k : Nat × String) :
    ∀ cs : List (TermEntry × List TermEntry),
      ∀ e ∈ heapFlattenT (drainKey k cs).2.2, e ∈ heapFlattenT cs := by
  intro cs
  induction cs with
  | nil => intro e he; exact he
  | cons c cs ih =>
    intro e he
    obtain ⟨e0, it⟩ := c
    simp only [drainKey] at he
    simp only [heapFlattenT, List.map_cons, List.flatten_cons, List.mem_append,
      List.mem_cons]
    by_cases h : entryKey e0 = k
    · rw [if_pos h] at he
      cases it with
      | nil =>
        exact Or.inr (by simpa [heapFlattenT] using ih e he)
      | cons e2 it2 =>
        simp only [heapFlattenT, List.map_cons, List.flatten_cons,
          List.mem_append, List.mem_cons] at he
        rcases he with he | he
        · rcases he with rfl | he
          · exact Or.inl (Or.inr (by simp))
          · exact Or.inl (Or.inr (by simp [he]))
        · exact Or.inr (by simpa [heapFlattenT] using ih e (by simpa [heapFlattenT] using he))
    · rw [if_neg h] at he
      simp only [heapFlattenT, List.map_cons, List.flatten_cons,
        List.mem_append, List.mem_cons] at he
      rcases he with he | he
      · exact Or.inl he
      · exact Or.inr (by simpa [heapFlattenT] using ih e (by simpa [heapFlattenT] using he))


theorem mergeItersLoop_spec :
    ∀ (fuel : Nat) (cs : List (TermEntry × List TermEntry)),
      termHeapSize cs ≤ fuel →
      (∀ c ∈ cs, List.Chain' (fun a b => entryLt a b = true) (c.1 :: c.2)) →
      (∀ K : Nat × String,
        (mergeItersLoop fuel cs).filter (fun t => decide (entryKey t = K)) =
          if (heapFlattenT cs).filter (fun e => decide (entryKey e = K)) = [] then []
          else [(K.1, K.2,
            (((heapFlattenT cs).filter (fun e => decide (entryKey e = K))).map entryDf).sum,
            (((heapFlattenT cs).filter (fun e => decide (entryKey e = K))).map entryTc).sum)]) ∧
      List.Chain' (fun a b => entryLt a b = true) (mergeItersLoop fuel cs) ∧
      (∀ t ∈ mergeItersLoop fuel cs, ∃ e ∈ heapFlattenT cs, entryKey t = entryKey e) := by
  intro fuel
  induction fuel with
  | zero =>
    intro cs hsz hch
    match cs with
    | [] =>
      refine ⟨fun K => by simp [mergeItersLoop, heapFlattenT],
        by simp [mergeItersLoop], by simp [mergeItersLoop]⟩
    | c :: cs' =>
      exfalso
      simp only [termHeapSize, List.map_cons, List.sum_cons] at hsz
      omega
  | succ fuel ih =>
    intro cs hsz hch
    match cs with
    | [] =>
      refine ⟨fun K => by simp [mergeItersLoop, heapFlattenT],
        by simp [mergeItersLoop], by simp [mergeItersLoop]⟩
    | c :: cs' =>
      have hstep : mergeItersLoop (fuel + 1) (c :: cs') =
          ((minHeadKey cs' (entryKey c.1)).1, (minHeadKey cs' (entryKey c.1)).2,
            (drainKey (minHeadKey cs' (entryKey c.1)) (c :: cs')).1,
            (drainKey (minHeadKey cs' (entryKey c.1)) (c :: cs')).2.1) ::
          mergeItersLoop fuel
            (drainKey (minHeadKey cs' (entryKey c.1)) (c :: cs')).2.2 := by
        simp only [mergeItersLoop]
      set k0 := minHeadKey cs' (entryKey c.1) with hk0def
      set r := drainKey k0 (c :: cs') with hrdef
      have hLB : ∀ h ∈ c :: cs', tkeyLt (entryKey h.1) k0 = false := by
        intro h hh
        rcases List.mem_cons.mp hh with rfl | hh
        · rw [hk0def]
          exact minHeadKey_le_acc cs' (entryKey h.1)
        · rw [hk0def]
          exact minHeadKey_le_heads cs' (entryKey c.1) h hh
      have hAtt : ∃ h ∈ c :: cs', entryKey h.1 = k0 := by
        rcases minHeadKey_attained cs' (entryKey c.1) with h2 | ⟨c', hc', h2⟩
        · exact ⟨c, by simp, by rw [hk0def, h2]⟩
        · exact ⟨c', by simp [hc'], by rw [hk0def, h2]⟩
      have htails := tails_no_key k0 (c :: cs') hch hLB
      have hheads := heapFlattenT_filter_eq_heads k0 (c :: cs') htails
      have hszlt := drainKey_size_lt k0 (c :: cs') hAtt
      rw [← hrdef] at hszlt
      have hsz' : termHeapSize r.2.2 ≤ fuel := by
        simp only [termHeapSize, List.map_cons, List.sum_cons] at hsz hszlt ⊢
        omega
      have hinv' := drainKey_inv k0 (c :: cs') hch
      rw [← hrdef] at hinv'
      obtain ⟨ihF, ihC, ihM⟩ := ih r.2.2 hsz' hinv'
      have hgt := drainKey_flatten_keys_gt k0 (c :: cs') hch hLB
      rw [← hrdef] at hgt
      have hsub := drainKey_flatten_subset k0 (c :: cs')
      rw [← hrdef] at hsub
      have hsums := drainKey_sums k0 (c :: cs')
      rw [← hrdef] at hsums
      have hkey0 : entryKey (k0.1, k0.2, r.1, r.2.1) = k0 := by
        simp [entryKey]
      refine ⟨?_, ?_, ?_⟩
      · intro K
        rw [hstep, List.filter_cons]
        by_cases hK : K = k0
        · have hkeep : decide (entryKey (k0.1, k0.2, r.1, r.2.1) = K) = true := by
            rw [hkey0, hK]
            simp
          rw [hkeep, if_pos rfl]
          have hflat0 : (heapFlattenT r.2.2).filter
              (fun e => decide (entryKey e = K)) = [] := by
            rw [List.filter_eq_nil_iff]
            intro e he
            simp only [decide_eq_true_eq]
            intro hcon
            have hx := hgt e he
            rw [hcon, hK] at hx
            rw [tkeyLt_strictTotal.irrefl] at hx
            exact Bool.false_ne_true hx
          have hrec := ihF K
          rw [hflat0, if_pos rfl] at hrec
          rw [hrec]
          have hHF : (heapFlattenT (c :: cs')).filter (fun e => decide (entryKey e = K)) =
              ((c :: cs').filter (fun c => decide (entryKey c.1 = k0))).map
                (fun c => c.1) := by
            rw [hK]
            exact hheads
          rw [hHF]
          obtain ⟨h0, hh0, hh0k⟩ := hAtt
          have hne2 : ((c :: cs').filter (fun c => decide (entryKey c.1 = k0))).map
              (fun c => c.1) ≠ [] := by
            have hmem : h0 ∈ (c :: cs').filter (fun c => decide (entryKey c.1 = k0)) :=
              List.mem_filter.mpr ⟨hh0, by simp [hh0k]⟩
            have hmem2 := List.mem_map_of_mem (fun c => c.1) hmem
            intro hx
            rw [hx] at hmem2
            simp at hmem2
          rw [if_neg hne2]
          subst hK
          rw [List.map_map, List.map_map]
          have hc1 : (entryDf ∘ fun c => c.1) = fun c : TermEntry × List TermEntry =>
              entryDf c.1 := rfl
          have hc2 : (entryTc ∘ fun c => c.1) = fun c : TermEntry × List TermEntry =>
              entryTc c.1 := rfl
          rw [hc1, hc2, ← hsums.1, ← hsums.2]
        · have hdrop : decide (entryKey (k0.1, k0.2, r.1, r.2.1) = K) = false := by
            rw [hkey0]
            exact decide_eq_false (fun hx => hK hx.symm)
          rw [hdrop]
          simp only [Bool.false_eq_true, if_false]
          have hX := drainKey_flatten_filter_ne k0 K hK (c :: cs')
          rw [← hrdef] at hX
          rw [ihF K, hX]
      · rw [hstep]
        rcases hrec : mergeItersLoop fuel r.2.2 with _ | ⟨t, ts⟩
        · simp
        · refine List.chain'_cons.mpr ⟨?_, hrec ▸ ihC⟩
          obtain ⟨e, he, hte⟩ := ihM t (by rw [hrec]; simp)
          show entryLt (k0.1, k0.2, r.1, r.2.1) t = true
          rw [entryLt, hkey0, hte]
          exact hgt e he
      · rw [hstep]
        intro t ht
        rcases List.mem_cons.mp ht with rfl | ht
        · obtain ⟨h0, hh0, hh0k⟩ := hAtt
          exact ⟨h0.1, head_mem_heapFlattenT hh0, by rw [hkey0, hh0k]⟩
        · obtain ⟨e, he, hte⟩ := ihM t ht
          exact ⟨e, hsub e he, hte⟩


/-- C6 (amended): provided every per-segment iterator is nonempty (an empty
iterator terminates the generator during the initial fill, so the merge
yields nothing — see the counterexample) and each yields strictly ascending
`(fieldnum, text)` keys, `_merge_iters` yields tuples in strictly ascending
key order with exactly one tuple per distinct key present in any input,
whose `docfreq` and `termcount` are the sums of those values over every
segment entry holding that key. -/
theorem merge_iters_aggregated_merge (its : List (List TermEntry))
    (hne : ∀ l ∈ its, l ≠ [])
    (hasc : ∀ l ∈ its, List.Chain' (fun a b => entryLt a b = true) l) :
    List.Chain' (fun a b => entryLt a b = true) (_merge_iters its) ∧
    ∀ K : Nat × String,
      (_merge_iters its).filter (fun t => decide (entryKey t = K)) =
        if its.flatten.filter (fun e => decide (entryKey e = K)) = [] then []
        else [(K.1, K.2,
          ((its.flatten.filter (fun e => decide (entryKey e = K))).map entryDf).sum,
          ((its.flatten.filter (fun e => decide (entryKey e = K))).map entryTc).sum)] := by
  have hanyf : its.any (fun l => l.isEmpty) = false := by
    rw [List.any_eq_false]
    intro l hl
    simp only [List.isEmpty_iff]
    exact hne l hl
  have hflat : heapFlattenT (its.filterMap toHeadPair) = its.flatten := by
    unfold heapFlattenT
    exact flatten_filterMap_heads its
  have hcur : ∀ c ∈ its.filterMap toHeadPair,
      List.Chain' (fun a b => entryLt a b = true) (c.1 :: c.2) := by
    intro c hc
    obtain ⟨l, hl, hfl⟩ := List.mem_filterMap.mp hc
    match l, hfl with
    | [], h => simp [toHeadPair] at h
    | a :: rest, h =>
      simp only [toHeadPair, Option.some.injEq] at h
      subst h
      exact hasc _ hl
  obtain ⟨hF, hC, -⟩ := mergeItersLoop_spec
    (termHeapSize (its.filterMap toHeadPair))
    (its.filterMap toHeadPair)
    (Nat.le_refl _) hcur
  have hun : _merge_iters its = mergeItersLoop
      (termHeapSize (its.filterMap toHeadPair))
      (its.filterMap toHeadPair) := by
    simp only [_merge_iters, hanyf, Bool.false_eq_true, if_false]
  constructor
  · rw [hun]
    exact hC
  · intro K
    rw [hun, hF K, hflat]

/-- Witness for the amended C6 at the spec example: two segments both hold
the key `(0, "fox")`, with `(docfreq, termcount)` equal to `(2, 5)` and
`(1, 1)`; the merge emits `(0, "fox", 3, 6)` once, followed by the key
`(1, "the")` held by only the first segment. -/
theorem merge_iters_aggregated_merge_witness :
    List.Chain' (fun a b => entryLt a b = true)
      (_merge_iters [[(0, "fox", 2, 5), (1, "the", 0, 7)], [(0, "fox", 1, 1)]]) ∧
    ∀ K : Nat × String,
      (_merge_iters [[(0, "fox", 2, 5), (1, "the", 0, 7)],
          [(0, "fox", 1, 1)]]).filter (fun t => decide (entryKey t = K)) =
        if ([[(0, "fox", 2, 5), (1, "the", 0, 7)],
            [(0, "fox", 1, 1)]] : List (List TermEntry)).flatten.filter
              (fun e => decide (entryKey e = K)) = [] then []
        else [(K.1, K.2,
          ((([[(0, "fox", 2, 5), (1, "the", 0, 7)],
              [(0, "fox", 1, 1)]] : List (List TermEntry)).flatten.filter
                (fun e => decide (entryKey e = K))).map entryDf).sum,
          ((([[(0, "fox", 2, 5), (1, "the", 0, 7)],
              [(0, "fox", 1, 1)]] : List (List TermEntry)).flatten.filter
                (fun e => decide (entryKey e = K))).map entryTc).sum)] :=
  merge_iters_aggregated_merge
    [[(0, "fox", 2, 5), (1, "the", 0, 7)], [(0, "fox", 1, 1)]]
    (by decide)
    (by
      intro l hl
      simp only [List.mem_cons, List.mem_singleton] at hl
      rcases hl with rfl | rfl | hl
      · exact List.chain'_cons.mpr ⟨by decide, List.chain'_singleton _⟩
      · exact List.chain'_singleton _
      · simp at hl)

end Whoosh
